import Mathlib

/-!
Memory locations of `lib/SIL/Location.cpp`.

A shallow embedding of `Location` (root object plus optional projection path), its
expansion into field locations, the alias predicates, the bottom-up merge of a location
set and the enumeration of the locations of a function into the location vault.

Conventions of the embedding.

* A `ProjectionPath` is the list of its projections in the order in which `append` stored
  them.  `expand` and `getFirstLevelLocations` build the path of a sub-location with
  `X.append(P); X.append(L.Path.getValue())`, that is `P :: path`: the stored list runs
  from the innermost projection to the outermost one.
* `llvm::Optional::getValue()` on an absent value has no result: the operations that reach
  it return `none`.
* The worklist loop of `expand` is driven by a fuel counter, one unit per iteration; `none`
  is also the answer when the fuel runs out before the worklist is empty.
* `llvm::DenseSet<Location>` and `llvm::DenseMap<Location, unsigned>` are lists of keys and
  of entries, searched with the equality of `Location`.
* `unsigned` indices are natural numbers (a vector of `2 ^ 32` locations is out of reach).
-/

set_option autoImplicit false

namespace swift

/-! ## Data model -/

/-- A root object handle (`SILValue`); `none` is the null value. -/
abbrev SILValue := Option Nat

/-- A `SILType`, named by a number. -/
abbrev SILType := Nat

/-- Modelled from the spec: the kind tag of a `Projection` (declared in `Projection.h`). -/
inductive ProjectionKind where
  | StructField
  | TupleElement
  | EnumCasePayload
  | ClassField
  | Index
  deriving DecidableEq

/-- Modelled from the spec: a `Projection` (declared in `Projection.h`), a tagged selector
`{kind, selector}` that is immutable and comparable. -/
structure Projection where
  kind : ProjectionKind
  selector : Nat
  deriving DecidableEq

/-- A `ProjectionPath`: the projections in the order `append` stored them. -/
abbrev ProjectionPath := List Projection

/-- The class `Location`: the base object and the optional projection path. -/
structure Location where
  Base : SILValue
  Path : Option ProjectionPath
  deriving DecidableEq

/-- The `LocationList` of the source, a vector of locations. -/
abbrev LocationList := List Location

/-- The collaborators that `Location.cpp` reaches through `Location.h` and `Projection.h`
for type decomposition: `getType` is `Location::getType()` and `getFirstLevelProjections`
is `Projection::getFirstLevelProjections(Ty, Mod, Out)`.  Both are parameters. -/
structure SILModule where
  getType : Location → SILType
  getFirstLevelProjections : SILType → List Projection

/-- The alias oracle `AliasAnalysis`, queried on base objects only. -/
structure AliasAnalysis where
  isNoAlias : SILValue → SILValue → Bool
  isMustAlias : SILValue → SILValue → Bool

/-- The two external functions used by `Location::initialize`:
`getUnderlyingObject(Dest)` and `ProjectionPath::getAddrProjectionPath(Base, Dest)`. -/
structure AddressOracle where
  getUnderlyingObject : SILValue → SILValue
  getAddrProjectionPath : SILValue → SILValue → Option ProjectionPath

/-- `Location L(Mem)`, that is `Location::initialize(Mem)`:
`Base = getUnderlyingObject(Dest); Path = getAddrProjectionPath(Base, Dest)`. -/
def Location.ofValue (R : AddressOracle) (Dest : SILValue) : Location :=
  let Base := R.getUnderlyingObject Dest
  { Base := Base, Path := R.getAddrProjectionPath Base Dest }

/-! ## Path comparison -/

/-- `Location::hasIdenticalProjectionPath`, test by test. -/
def Location.hasIdenticalProjectionPath (self RHS : Location) : Bool :=
  if !self.Path.isSome && !RHS.Path.isSome then false
  else if self.Path.isSome != RHS.Path.isSome then false
  else
    match self.Path, RHS.Path with
    | some p, some q =>
      if p.isEmpty && q.isEmpty then true
      else if p != q then false
      else true
    | _, _ => false

/-- The projections of a path from the root object inwards.  `expand` and
`getFirstLevelLocations` store the projection of a sub-location in front of the path of
its parent, so the stored list runs from the innermost projection to the outermost one
and the outer-to-inner sequence is its reverse. -/
def ProjectionPath.outerToInner (p : ProjectionPath) : List Projection :=
  p.reverse

/-- The walk over two sequences of projections from their first elements: it stops at the
first position where they differ and answers `true` there (both remainders are
non-empty); when one sequence ends first it is a prefix of the other and the answer is
`false`. -/
def ProjectionPath.remaindersNonEmpty : List Projection → List Projection → Bool
  | a :: p, b :: q => if a = b then remaindersNonEmpty p q else true
  | _, _ => false

/-- Modelled from the spec: `ProjectionPath::hasNonEmptySymmetricDifference` (in
`Projection.cpp`): after removing the longest common prefix of the two paths both
remainders are non-empty, "meaning the locations diverge into different fields at some
common ancestor".  The common ancestors of two locations are named by the outer
projections, so the prefix is taken on the outer-to-inner sequences. -/
def ProjectionPath.hasNonEmptySymmetricDifference (p q : ProjectionPath) : Bool :=
  ProjectionPath.remaindersNonEmpty (ProjectionPath.outerToInner p)
    (ProjectionPath.outerToInner q)

/-- Modelled from the spec: `Location::hasNonEmptySymmetricPathDifference` (declared in
`Location.h`), the symmetric difference test on the two present paths. -/
def Location.hasNonEmptySymmetricPathDifference (self RHS : Location) : Option Bool :=
  match self.Path, RHS.Path with
  | some p, some q => some (ProjectionPath.hasNonEmptySymmetricDifference p q)
  | _, _ => none

/-- Modelled from the spec: `Location::operator==` (declared in `Location.h`): the bases
are identical and the paths are present and structurally equal; two locations with an
absent path are never equal. -/
def Location.isEqual (self RHS : Location) : Bool :=
  decide (self.Base = RHS.Base) && self.hasIdenticalProjectionPath RHS

/-! ## Alias queries -/

/-- `Location::isMayAliasLocation`. -/
def Location.isMayAliasLocation (self RHS : Location) (AA : AliasAnalysis) : Option Bool :=
  if AA.isNoAlias self.Base RHS.Base then some false
  else
    match self.hasNonEmptySymmetricPathDifference RHS with
    | none => none
    | some d => if d then some false else some true

/-- `Location::isMustAliasLocation`. -/
def Location.isMustAliasLocation (self RHS : Location) (AA : AliasAnalysis) : Bool :=
  if !AA.isMustAlias self.Base RHS.Base then false
  else if !self.hasIdenticalProjectionPath RHS then false
  else true

/-! ## Expansion -/

/-- The sub-location that `expand` and `getFirstLevelLocations` build for projection `P`
under a location with path `path`: `X.append(P); X.append(path); Location(Base, X)`. -/
def Location.sub (Base : SILValue) (path : ProjectionPath) (P : Projection) : Location :=
  { Base := Base, Path := some (P :: path) }

/-- The worklist loop of `Location::expand` (lines 54-79).  `Base` is the base of the
location being expanded; the worklist is popped at its back. -/
def expandLoop (Mod : SILModule) (Base : SILValue) (OnlyLeafNode : Bool) :
    Nat → LocationList → LocationList → Option LocationList
  | 0, Worklist, Locs => if Worklist.isEmpty then some Locs else none
  | fuel + 1, Worklist, Locs =>
    match Worklist.getLast? with
    | none => some Locs
    | some L =>
      let Projections := Mod.getFirstLevelProjections (Mod.getType L)
      if Projections.isEmpty then
        expandLoop Mod Base OnlyLeafNode fuel Worklist.dropLast (Locs ++ [L])
      else
        match L.Path with
        | none => none
        | some path =>
          let LLs := Projections.map (Location.sub Base path)
          expandLoop Mod Base OnlyLeafNode fuel (Worklist.dropLast ++ LLs)
            (if OnlyLeafNode then Locs else Locs ++ LLs)

/-- `Location::expand(Mod, Locs, OnlyLeafNode)`: the locations are appended to `Locs`. -/
def Location.expand (self : Location) (Mod : SILModule) (fuel : Nat) (Locs : LocationList)
    (OnlyLeafNode : Bool) : Option LocationList :=
  expandLoop Mod self.Base OnlyLeafNode fuel [self]
    (if OnlyLeafNode then Locs else Locs ++ [self])

/-- `Location::getFirstLevelLocations(Locs, Mod)`. -/
def Location.getFirstLevelLocations (self : Location) (Locs : LocationList)
    (Mod : SILModule) : Option LocationList :=
  let Out := Mod.getFirstLevelProjections (Mod.getType self)
  if Out.isEmpty then some Locs
  else
    match self.Path with
    | none => none
    | some path => some (Locs ++ Out.map (Location.sub self.Base path))

/-! ## Location sets and merge -/

/-- A `llvm::DenseSet<Location>`: the list of its keys. -/
abbrev LocationSet := List Location

/-- `Locs.find(X) != Locs.end()`. -/
def LocationSet.contains (Locs : LocationSet) (X : Location) : Bool :=
  Locs.any (fun Y => Y.isEqual X)

/-- `Locs.erase(X)`. -/
def LocationSet.erase (Locs : LocationSet) (X : Location) : LocationSet :=
  Locs.filter (fun Y => !Y.isEqual X)

/-- `Locs.insert(X)`. -/
def LocationSet.insert (Locs : LocationSet) (X : Location) : LocationSet :=
  if Locs.contains X then Locs else Locs ++ [X]

/-- The set holding the locations of a list, inserted one by one. -/
def LocationSet.ofList (Xs : LocationList) : LocationSet :=
  Xs.foldl LocationSet.insert []

/-- One iteration of the loop of `Location::mergeLocations` (lines 117-135), for the
candidate `I`. -/
def mergeStep (Mod : SILModule) (Locs : LocationSet) (I : Location) : Option LocationSet :=
  match I.getFirstLevelLocations [] Mod with
  | none => none
  | some FirstLevel =>
    if FirstLevel.isEmpty then some Locs
    else
      let Alive := FirstLevel.all (fun X => Locs.contains X)
      if Alive then some ((FirstLevel.foldl LocationSet.erase Locs).insert I)
      else some Locs

/-- The loop of `Location::mergeLocations` over the candidates in the order given. -/
def mergeLoop (Mod : SILModule) : List Location → LocationSet → Option LocationSet
  | [], Locs => some Locs
  | I :: rest, Locs =>
    match mergeStep Mod Locs I with
    | none => none
    | some Locs1 => mergeLoop Mod rest Locs1

/-- `Location::mergeLocations(Locs, M, Mod)`: the result is the new value of `Locs`. -/
def Location.mergeLocations (Mod : SILModule) (fuel : Nat) (Locs : LocationSet)
    (M : Location) : Option LocationSet :=
  if Locs.isEmpty then some Locs
  else
    match M.expand Mod fuel [] false with
    | none => none
    | some AllLocs => mergeLoop Mod AllLocs.reverse Locs

/-! ## Enumeration into the location vault -/

/-- A `llvm::DenseMap<Location, unsigned>`: the list of its entries. -/
abbrev LocationIndexMap := List (Location × Nat)

/-- The index stored for a key, `BM.find(L)`. -/
def LocationIndexMap.lookup (BM : LocationIndexMap) (L : Location) : Option Nat :=
  (BM.find? (fun e => e.1.isEqual L)).map (fun e => e.2)

/-- The assignment `BM[L] = v`: the entry of an existing key is overwritten, a new key
gets a new entry. -/
def LocationIndexMap.set (BM : LocationIndexMap) (L : Location) (v : Nat) :
    LocationIndexMap :=
  if BM.any (fun e => e.1.isEqual L) then
    BM.map (fun e => if e.1.isEqual L then (e.1, v) else e)
  else BM ++ [(L, v)]

/-- The keys of the index map. -/
def LocationIndexMap.keys (BM : LocationIndexMap) : List Location :=
  BM.map (fun e => e.1)

/-- The location vault: the vector `LV` and the index map `BM`. -/
structure Vault where
  LV : List Location
  BM : LocationIndexMap
  deriving DecidableEq

/-- The loop of `Location::enumerateLocation` (lines 165-168):
`BM[Loc] = LV.size(); LV.push_back(Loc);` for each expanded location. -/
def enumerateLoop : LocationList → Vault → Vault
  | [], V => V
  | Loc :: rest, V =>
    enumerateLoop rest { LV := V.LV ++ [Loc], BM := V.BM.set Loc V.LV.length }

/-- `Location::enumerateLocation(M, Mem, LV, BM)`.  The call `L.expand(M, Locs)` leaves the
third argument to its default, which `Location.h` declares: it is the parameter
`OnlyLeafNode` here. -/
def Location.enumerateLocation (Mod : SILModule) (R : AddressOracle) (OnlyLeafNode : Bool)
    (fuel : Nat) (Mem : SILValue) (V : Vault) : Option Vault :=
  let L := Location.ofValue R Mem
  if !L.Base.isSome || !L.Path.isSome then some V
  else
    match L.expand Mod fuel [] OnlyLeafNode with
    | none => none
    | some Locs => some (enumerateLoop Locs V)

/-- The instructions as `enumerateLocations` sees them: a load with its operand, a store
with its source and destination, or any other instruction. -/
inductive SILInstruction where
  | LoadInst (Operand : SILValue)
  | StoreInst (Src Dest : SILValue)
  | Other
  deriving DecidableEq

/-- A basic block. -/
abbrev SILBasicBlock := List SILInstruction

/-- A function, the list of its blocks. -/
abbrev SILFunction := List SILBasicBlock

/-- The body of the inner loop of `Location::enumerateLocations` for one instruction. -/
def enumerateInst (Mod : SILModule) (R : AddressOracle) (OnlyLeafNode : Bool) (fuel : Nat)
    (I : SILInstruction) (V : Vault) : Option Vault :=
  match I with
  | .LoadInst Operand => Location.enumerateLocation Mod R OnlyLeafNode fuel Operand V
  | .StoreInst _ Dest => Location.enumerateLocation Mod R OnlyLeafNode fuel Dest V
  | .Other => some V

/-- The instructions of a list enumerated in order. -/
def enumerateInsts (Mod : SILModule) (R : AddressOracle) (OnlyLeafNode : Bool) (fuel : Nat) :
    List SILInstruction → Vault → Option Vault
  | [], V => some V
  | I :: rest, V =>
    match enumerateInst Mod R OnlyLeafNode fuel I V with
    | none => none
    | some V1 => enumerateInsts Mod R OnlyLeafNode fuel rest V1

/-- `Location::enumerateLocations(F, LV, BM)`: every instruction of every block in
program order. -/
def Location.enumerateLocations (Mod : SILModule) (R : AddressOracle) (OnlyLeafNode : Bool)
    (fuel : Nat) (F : SILFunction) (V : Vault) : Option Vault :=
  enumerateInsts Mod R OnlyLeafNode fuel F.flatten V

/-! ## Invariants of the vault -/

/-- Index injectivity of a vault: no two distinct keys of the index map share an index,
and every stored index is smaller than the length of the location list. -/
def VaultInjective (V : Vault) : Prop :=
  (∀ K1 K2 i, V.BM.lookup K1 = some i → V.BM.lookup K2 = some i → K1 = K2) ∧
    (∀ K i, V.BM.lookup K = some i → i < V.LV.length)

/-- The list and the index map of a vault agree: every entry of the index map has a key
with a present path and an index at which the location list holds that key, no key has
two entries, and every location of the list is a key. -/
def VaultLinked (V : Vault) : Prop :=
  (∀ e ∈ V.BM, e.1.Path.isSome = true ∧ V.LV[e.2]? = some e.1) ∧
    V.BM.keys.Nodup ∧ (∀ K ∈ V.LV, K ∈ V.BM.keys)

/-! ## The decomposition tree of a location -/

/-- The first-level locations of `L`, as `getFirstLevelLocations` and `expand` build them:
one per first-level projection of the type of `L`, with the projection in front of the path
of `L`.  A location with an absent path has none. -/
def Location.children (Mod : SILModule) (L : Location) : List Location :=
  match L.Path with
  | none => []
  | some path => (Mod.getFirstLevelProjections (Mod.getType L)).map (Location.sub L.Base path)

/-- The decomposition tree under `L` is finite: no infinite chain of first-level
locations starts at `L`. -/
inductive FiniteTree (Mod : SILModule) : Location → Prop
  | node (L : Location) (h : ∀ c ∈ L.children Mod, FiniteTree Mod c) : FiniteTree Mod L

/-- The decomposition tree under `L` has fewer than `d` levels below its root. -/
def heightLE (Mod : SILModule) : Nat → Location → Bool
  | 0, _ => false
  | d + 1, L => (L.children Mod).all (heightLE Mod d)

/-- The relation `Below Mod N X`: `X` is a node of the decomposition tree under `N`, that
is `N` itself or a location below one of its first-level locations. -/
inductive Below (Mod : SILModule) : Location → Location → Prop
  | self (N : Location) : Below Mod N N
  | step {N c X : Location} (hc : c ∈ N.children Mod) (h : Below Mod c X) : Below Mod N X

/-- A leaf field of `L`: a node of the decomposition tree under `L` whose type has no
first-level projection. -/
def IsLeafOf (Mod : SILModule) (L X : Location) : Prop :=
  Below Mod L X ∧ Mod.getFirstLevelProjections (Mod.getType X) = []

/-- The locations that the loop of `expand` emits from the moment it pops `L` until the
worklist is back to what was under `L`, for a tree with fewer than `d` levels below `L`:
a leaf is emitted itself; otherwise the first-level locations are emitted (unless only
leaves are kept) and then handled from the last one to the first. -/
def subtreeLocs (Mod : SILModule) (OnlyLeafNode : Bool) : Nat → Location → List Location
  | 0, _ => []
  | d + 1, L =>
    if (L.children Mod).isEmpty then [L]
    else
      (if OnlyLeafNode then [] else L.children Mod) ++
        (L.children Mod).reverse.flatMap (subtreeLocs Mod OnlyLeafNode d)

/-- The relation `Covered Mod S N`: `N` is a member of `S`, or `N` has first-level
locations and all of them are covered by `S`. -/
inductive Covered (Mod : SILModule) (S : LocationSet) : Location → Prop
  | mem {N : Location} (h : N ∈ S) : Covered Mod S N
  | merge {N : Location} (hne : N.children Mod ≠ [])
      (h : ∀ c ∈ N.children Mod, Covered Mod S c) : Covered Mod S N

/-- The candidate `X` has been visited by the merge loop (it is in `done`) and was merged:
it has first-level locations and all of them are covered by the initial set `S0`. -/
def Merged (Mod : SILModule) (S0 : LocationSet) (done : List Location) (X : Location) :
    Prop :=
  X ∈ done ∧ X.children Mod ≠ [] ∧ ∀ c ∈ X.children Mod, Covered Mod S0 c

/-- The state of the merge loop after the candidates `done`: a location is a member of
the set exactly when it was a member initially or has been merged, and no location that
it is a first-level location of has been merged. -/
def MergeInv (Mod : SILModule) (S0 : LocationSet) (done : List Location)
    (S : LocationSet) : Prop :=
  ∀ X, X ∈ S ↔ (X ∈ S0 ∨ Merged Mod S0 done X) ∧
    ¬ ∃ P, X ∈ P.children Mod ∧ Merged Mod S0 done P

/-! ## Example programs -/

/-- Field `fieldA` of a struct. -/
def fieldA : Projection := { kind := .StructField, selector := 0 }

/-- Field `fieldB` of a struct. -/
def fieldB : Projection := { kind := .StructField, selector := 1 }

/-- The whole object `0`. -/
def wholeObject : Location := { Base := some 0, Path := some [] }

/-- The location of field `fieldA` of object `0`. -/
def locA : Location := { Base := some 0, Path := some [fieldA] }

/-- The location of field `fieldB` of object `0`. -/
def locB : Location := { Base := some 0, Path := some [fieldB] }

/-- A location whose path could not be determined. -/
def unknownLoc : Location := { Base := some 0, Path := none }

/-- An alias oracle that never proves no-alias and knows a value must-aliases itself. -/
def identityAA : AliasAnalysis :=
  { isNoAlias := fun _ _ => false, isMustAlias := fun a b => decide (a = b) }

/-- An alias oracle that reports no-alias and must-alias for every pair of bases. -/
def eagerAA : AliasAnalysis :=
  { isNoAlias := fun _ _ => true, isMustAlias := fun _ _ => true }

/-- A module with one aggregate type: type `0` is a struct with the fields `fieldA` and
`fieldB`, both of the scalar type `1`.  A location with the empty path has type `0`, every
other location type `1`. -/
def twoFieldModule : SILModule :=
  { getType := fun L => match L.Path with
      | some [] => 0
      | _ => 1,
    getFirstLevelProjections := fun T => if T = 0 then [fieldA, fieldB] else [] }

/-- Value `0` is the struct object, value `1` the address of its field `fieldA` and value
`2` the address of its field `fieldB`; no other value can be resolved. -/
def twoFieldOracle : AddressOracle :=
  { getUnderlyingObject := fun v => match v with
      | some 0 => some 0
      | some 1 => some 0
      | some 2 => some 0
      | _ => none,
    getAddrProjectionPath := fun _ v => match v with
      | some 0 => some []
      | some 1 => some [fieldA]
      | some 2 => some [fieldB]
      | _ => none }

/-- The empty vault. -/
def emptyVault : Vault := { LV := [], BM := [] }

/-- A module with a nested aggregate: type `0` is a struct with field `fieldA` of the
struct type `2` and field `fieldB` of the scalar type `1`; type `2` is a struct with the
scalar fields `fieldA` and `fieldB`.  The location with the empty path has type `0`, the
location with path `[fieldA]` type `2` and every other location type `1`. -/
def nestedModule : SILModule :=
  { getType := fun L => match L.Path with
      | some [] => 0
      | some [P] => if P = fieldA then 2 else 1
      | _ => 1,
    getFirstLevelProjections := fun T =>
      if T = 0 then [fieldA, fieldB] else if T = 2 then [fieldA, fieldB] else [] }

/-- Field `fieldA` of field `fieldA` of object `0`. -/
def locAA : Location := { Base := some 0, Path := some [fieldA, fieldA] }

/-- Field `fieldB` of field `fieldA` of object `0`. -/
def locAB : Location := { Base := some 0, Path := some [fieldB, fieldA] }

/-- The leaf `l` is covered by the set `S` within the tree under `M`: `l` itself or a node
of the tree above `l` is a member of `S`. -/
def CoveredIn (Mod : SILModule) (M : Location) (S : LocationSet) (l : Location) : Prop :=
  ∃ A, Below Mod M A ∧ Below Mod A l ∧ A ∈ S

/-- The number of projections of the path of a location: its depth in the decomposition
tree under an object with the empty path. -/
def Location.pathLength (L : Location) : Nat :=
  match L.Path with
  | some p => p.length
  | none => 0

/-- A list of locations is in level order: no location comes before a location that is
one level higher. -/
def InLevelOrder (out : List Location) : Prop :=
  out.Pairwise (fun X Y => X.pathLength ≠ Y.pathLength + 1)

/-- A module with a skewed aggregate: type `0` is a struct with field `fieldA` of type
`1` and field `fieldB` of type `2`; types `1`, `2` and `3` are structs with the single
field `fieldA`; the field of type `2` has type `3`, the fields of types `1` and `3` are
scalars of type `9`. -/
def skewModule : SILModule :=
  { getType := fun L => match L.Path with
      | some [] => 0
      | some [P] => if P = fieldA then 1 else 2
      | some [P, Q] => if P = fieldA ∧ Q = fieldB then 3 else 9
      | _ => 9,
    getFirstLevelProjections := fun T =>
      if T = 0 then [fieldA, fieldB] else if T = 1 ∨ T = 2 ∨ T = 3 then [fieldA] else [] }

/-- Field `fieldA` of field `fieldB` of object `0`. -/
def locBA : Location := { Base := some 0, Path := some [fieldA, fieldB] }

/-- Field `fieldA` of field `fieldA` of field `fieldB` of object `0`. -/
def locBAA : Location := { Base := some 0, Path := some [fieldA, fieldA, fieldB] }

/-- The locations that `enumerateLocation` reaches for the memory reference `Mem`: none
when the reference is skipped (null base or absent path), the expansion of its location
otherwise. -/
def accessedLocs (Mod : SILModule) (R : AddressOracle) (OnlyLeafNode : Bool) (fuel : Nat)
    (Mem : SILValue) : Option LocationList :=
  let L := Location.ofValue R Mem
  if !L.Base.isSome || !L.Path.isSome then some []
  else L.expand Mod fuel [] OnlyLeafNode

/-- The locations that one instruction reaches: those of the operand of a load, those of
the destination of a store, none for any other instruction. -/
def instLocs (Mod : SILModule) (R : AddressOracle) (OnlyLeafNode : Bool) (fuel : Nat) :
    SILInstruction → Option LocationList
  | .LoadInst Operand => accessedLocs Mod R OnlyLeafNode fuel Operand
  | .StoreInst _ Dest => accessedLocs Mod R OnlyLeafNode fuel Dest
  | .Other => some []

/-- The locations that the instructions of a list reach, in program order and with
repetitions: the expansions of the accessed references one after the other. -/
def functionLocs (Mod : SILModule) (R : AddressOracle) (OnlyLeafNode : Bool) (fuel : Nat) :
    List SILInstruction → Option LocationList
  | [] => some []
  | I :: rest =>
    match instLocs Mod R OnlyLeafNode fuel I with
    | none => none
    | some Locs =>
      match functionLocs Mod R OnlyLeafNode fuel rest with
      | none => none
      | some Rest => some (Locs ++ Rest)

/-! # Theorems -/

/-! ## Path comparison -/

theorem hasIdenticalProjectionPath_iff (L R : Location) :
    L.hasIdenticalProjectionPath R = true ↔ ∃ p, L.Path = some p ∧ R.Path = some p := by
  obtain ⟨b1, p1⟩ := L
  obtain ⟨b2, p2⟩ := R
  cases p1 with
  | none => cases p2 <;> simp [Location.hasIdenticalProjectionPath]
  | some p =>
    cases p2 with
    | none => simp [Location.hasIdenticalProjectionPath]
    | some q =>
      by_cases h : p = q
      · subst h; simp [Location.hasIdenticalProjectionPath]
      · have h2 : ¬ (p = [] ∧ q = []) := fun hh => h (hh.1.trans hh.2.symm)
        simp [Location.hasIdenticalProjectionPath, h, h2]
        intro hp
        exact h hp.symm

theorem remaindersNonEmpty_iff (p q : List Projection) :
    ProjectionPath.remaindersNonEmpty p q = true ↔
      ∃ c a r b s, a ≠ b ∧ p = c ++ a :: r ∧ q = c ++ b :: s := by
  induction p generalizing q with
  | nil =>
    simp [ProjectionPath.remaindersNonEmpty]
  | cons x p ih =>
    cases q with
    | nil => simp [ProjectionPath.remaindersNonEmpty]
    | cons y q =>
      by_cases hxy : x = y
      · subst hxy
        simp only [ProjectionPath.remaindersNonEmpty, if_true, ih]
        constructor
        · rintro ⟨c, a, r, b, s, hab, rfl, rfl⟩
          exact ⟨x :: c, a, r, b, s, hab, rfl, rfl⟩
        · rintro ⟨c, a, r, b, s, hab, h1, h2⟩
          cases c with
          | nil =>
            simp at h1 h2
            exact absurd (h1.1.symm.trans h2.1) hab
          | cons z c =>
            simp at h1 h2
            exact ⟨c, a, r, b, s, hab, h1.2, h2.2⟩
      · simp only [ProjectionPath.remaindersNonEmpty, hxy, if_false, true_iff]
        exact ⟨[], x, p, y, q, hxy, rfl, rfl⟩

theorem remaindersNonEmpty_of_overlap (p q : List Projection)
    (h : p <+: q ∨ q <+: p) :
    ProjectionPath.remaindersNonEmpty p q = false := by
  cases hd : ProjectionPath.remaindersNonEmpty p q with
  | false => rfl
  | true =>
    exfalso
    obtain ⟨c, a, r, b, s, hab, hp, hq⟩ := (remaindersNonEmpty_iff p q).1 hd
    subst hp hq
    rcases h with ⟨t, ht⟩ | ⟨t, ht⟩
    · rw [List.append_assoc, List.append_cancel_left_eq] at ht
      simp at ht
      exact hab ht.1
    · rw [List.append_assoc, List.append_cancel_left_eq] at ht
      simp at ht
      exact hab ht.1.symm

/-- When the walk answers `false` one sequence is a prefix of the other. -/
theorem overlap_of_remaindersNonEmpty (p q : List Projection)
    (h : ProjectionPath.remaindersNonEmpty p q = false) : p <+: q ∨ q <+: p := by
  induction p generalizing q with
  | nil => exact Or.inl (List.nil_prefix)
  | cons x p ih =>
    cases q with
    | nil => exact Or.inr (List.nil_prefix)
    | cons y q =>
      by_cases hxy : x = y
      · subst hxy
        simp only [ProjectionPath.remaindersNonEmpty, if_true] at h
        rcases ih q h with h1 | h1
        · exact Or.inl ((List.prefix_cons_inj x).2 h1)
        · exact Or.inr ((List.prefix_cons_inj x).2 h1)
      · simp [ProjectionPath.remaindersNonEmpty, hxy] at h

/-! ## Alias queries -/

/-- C4: two locations with present paths that diverge (read from the root object
inwards, after the common part `c` the remainders `a :: r` and `b :: s` are both
non-empty and start with different projections) do not may-alias, for every alias
oracle. -/
theorem isMayAliasLocation_diverge (L R : Location) (AA : AliasAnalysis)
    (p q : ProjectionPath) (c r s : List Projection) (a b : Projection) (hab : a ≠ b)
    (hL : L.Path = some p) (hR : R.Path = some q)
    (hp : ProjectionPath.outerToInner p = c ++ a :: r)
    (hq : ProjectionPath.outerToInner q = c ++ b :: s) :
    L.isMayAliasLocation R AA = some false := by
  have hd : ProjectionPath.hasNonEmptySymmetricDifference p q = true := by
    unfold ProjectionPath.hasNonEmptySymmetricDifference
    rw [hp, hq]
    exact (remaindersNonEmpty_iff _ _).2 ⟨c, a, r, b, s, hab, rfl, rfl⟩
  unfold Location.isMayAliasLocation Location.hasNonEmptySymmetricPathDifference
  rw [hL, hR]
  cases AA.isNoAlias L.Base R.Base <;> simp [hd]

theorem isMayAliasLocation_diverge_witness :
    locA.isMayAliasLocation locB identityAA = some false :=
  isMayAliasLocation_diverge locA locB identityAA [fieldA] [fieldB] [] [] [] fieldA fieldB
    (by decide) rfl rfl rfl rfl

/-- C5: when one present path, read from the root object inwards, is a prefix of the
other (equal paths included) the locations may-alias exactly when the oracle does not
report no-alias on the bases; and whenever the oracle reports no-alias on the bases the
answer is false, whatever the paths are. -/
theorem isMayAliasLocation_overlap (L R : Location) (AA : AliasAnalysis)
    (p q : ProjectionPath) (hL : L.Path = some p) (hR : R.Path = some q)
    (h : ProjectionPath.outerToInner p <+: ProjectionPath.outerToInner q ∨
      ProjectionPath.outerToInner q <+: ProjectionPath.outerToInner p) :
    L.isMayAliasLocation R AA = some (!AA.isNoAlias L.Base R.Base) ∧
      ∀ L1 R1 : Location, AA.isNoAlias L1.Base R1.Base = true →
        L1.isMayAliasLocation R1 AA = some false := by
  constructor
  · have hd : ProjectionPath.hasNonEmptySymmetricDifference p q = false :=
      remaindersNonEmpty_of_overlap _ _ h
    unfold Location.isMayAliasLocation Location.hasNonEmptySymmetricPathDifference
    rw [hL, hR]
    cases AA.isNoAlias L.Base R.Base <;> simp [hd]
  · intro L1 R1 h1
    simp [Location.isMayAliasLocation, h1]

theorem isMayAliasLocation_overlap_witness :
    locA.isMayAliasLocation locAB identityAA = some true ∧
      unknownLoc.isMayAliasLocation locB eagerAA = some false :=
  ⟨(isMayAliasLocation_overlap locA locAB identityAA [fieldA] [fieldB, fieldA] rfl rfl
      (Or.inl ⟨[fieldB], rfl⟩)).1,
   (isMayAliasLocation_overlap locA locA eagerAA [fieldA] [fieldA] rfl rfl
      (Or.inl ⟨[], rfl⟩)).2 unknownLoc locB rfl⟩

/-- C6: `isMustAliasLocation` answers true exactly when the oracle reports must-alias on
the bases and both paths are present and equal; an absent path on either side gives
false; and a location with a present path must-aliases itself under an oracle that is
reflexive on must-alias. -/
theorem isMustAliasLocation_iff (L R : Location) (AA : AliasAnalysis) :
    (L.isMustAliasLocation R AA = true ↔
        AA.isMustAlias L.Base R.Base = true ∧ ∃ p, L.Path = some p ∧ R.Path = some p) ∧
      (L.Path = none ∨ R.Path = none → L.isMustAliasLocation R AA = false) ∧
      (L.Path.isSome = true → (∀ x, AA.isMustAlias x x = true) →
        L.isMustAliasLocation L AA = true) := by
  have key : ∀ X Y : Location, X.isMustAliasLocation Y AA = true ↔
      AA.isMustAlias X.Base Y.Base = true ∧ ∃ p, X.Path = some p ∧ Y.Path = some p := by
    intro X Y
    rw [← hasIdenticalProjectionPath_iff]
    unfold Location.isMustAliasLocation
    cases AA.isMustAlias X.Base Y.Base <;> cases X.hasIdenticalProjectionPath Y <;> simp
  refine ⟨key L R, ?_, ?_⟩
  · intro h
    cases hm : L.isMustAliasLocation R AA with
    | false => rfl
    | true =>
      obtain ⟨_, p, h1, h2⟩ := (key L R).1 hm
      rcases h with h | h
      · rw [h] at h1; cases h1
      · rw [h] at h2; cases h2
  · intro hp hrefl
    obtain ⟨p, hp1⟩ := Option.isSome_iff_exists.1 hp
    exact (key L L).2 ⟨hrefl _, p, hp1, hp1⟩

theorem isMustAliasLocation_iff_witness :
    unknownLoc.isMustAliasLocation locA eagerAA = false ∧
      locA.isMustAliasLocation locA identityAA = true :=
  ⟨(isMustAliasLocation_iff unknownLoc locA eagerAA).2.1 (Or.inl rfl),
   (isMustAliasLocation_iff locA locA identityAA).2.2 rfl (fun x => by simp [identityAA])⟩

/-- C7: `hasIdenticalProjectionPath` is true exactly when both paths are present and
equal; it is false whenever a path is absent, so a location with an absent path does not
have an identical path even to itself. -/
theorem hasIdenticalProjectionPath_spec (L R : Location) :
    (L.hasIdenticalProjectionPath R = true ↔ ∃ p, L.Path = some p ∧ R.Path = some p) ∧
      (L.Path = none ∨ R.Path = none → L.hasIdenticalProjectionPath R = false) ∧
      (L.Path = none → L.hasIdenticalProjectionPath L = false) := by
  have key : ∀ X Y : Location, (X.Path = none ∨ Y.Path = none) →
      X.hasIdenticalProjectionPath Y = false := by
    intro X Y h
    cases hm : X.hasIdenticalProjectionPath Y with
    | false => rfl
    | true =>
      obtain ⟨p, h1, h2⟩ := (hasIdenticalProjectionPath_iff X Y).1 hm
      rcases h with h | h
      · rw [h] at h1; cases h1
      · rw [h] at h2; cases h2
  exact ⟨hasIdenticalProjectionPath_iff L R, key L R, fun h => key L L (Or.inl h)⟩

theorem hasIdenticalProjectionPath_spec_witness :
    unknownLoc.hasIdenticalProjectionPath unknownLoc = false :=
  (hasIdenticalProjectionPath_spec unknownLoc unknownLoc).2.2 rfl

/-! ## Equality of locations and the index map -/

theorem isEqual_iff (X Y : Location) :
    X.isEqual Y = true ↔ X = Y ∧ Y.Path.isSome = true := by
  unfold Location.isEqual
  rw [Bool.and_eq_true, hasIdenticalProjectionPath_iff, decide_eq_true_iff]
  obtain ⟨b1, p1⟩ := X
  obtain ⟨b2, p2⟩ := Y
  constructor
  · rintro ⟨hb, p, h1, h2⟩
    simp only at hb h1 h2
    subst hb h1 h2
    simp
  · rintro ⟨h, hp⟩
    cases h
    obtain ⟨p, hp1⟩ := Option.isSome_iff_exists.1 hp
    exact ⟨rfl, p, hp1, hp1⟩

theorem isEqual_eq_decide (X Y : Location) (hY : Y.Path.isSome = true) :
    X.isEqual Y = decide (X = Y) := by
  rw [Bool.eq_iff_iff, isEqual_iff, decide_eq_true_iff]
  exact ⟨fun h => h.1, fun h => ⟨h, hY⟩⟩

theorem isEqual_of_absent (X Y : Location) (hY : Y.Path.isSome = false) :
    X.isEqual Y = false := by
  cases h : X.isEqual Y with
  | false => rfl
  | true => rw [((isEqual_iff X Y).1 h).2] at hY; cases hY

theorem isEqual_of_absent_left (X Y : Location) (hX : X.Path.isSome = false) :
    X.isEqual Y = false := by
  cases h : X.isEqual Y with
  | false => rfl
  | true =>
    have := (isEqual_iff X Y).1 h
    rw [this.1, this.2] at hX; cases hX

theorem isEqual_comm (X Y : Location) : X.isEqual Y = Y.isEqual X := by
  rw [Bool.eq_iff_iff, isEqual_iff, isEqual_iff]
  constructor
  · rintro ⟨rfl, h⟩; exact ⟨rfl, h⟩
  · rintro ⟨rfl, h⟩; exact ⟨rfl, h⟩

theorem lookup_nil (K : Location) : LocationIndexMap.lookup [] K = none := rfl

theorem lookup_cons (e : Location × Nat) (BM : LocationIndexMap) (K : Location) :
    LocationIndexMap.lookup (e :: BM) K
      = if e.1.isEqual K then some e.2 else LocationIndexMap.lookup BM K := by
  unfold LocationIndexMap.lookup
  rw [List.find?_cons]
  cases e.1.isEqual K <;> simp

theorem lookup_overwrite_same (BM : LocationIndexMap) (L : Location) (v : Nat)
    (h : BM.any (fun e => e.1.isEqual L) = true) :
    LocationIndexMap.lookup
      (BM.map (fun e => if e.1.isEqual L then (e.1, v) else e)) L = some v := by
  induction BM with
  | nil => simp at h
  | cons e BM ih =>
    rw [List.map_cons, lookup_cons]
    by_cases he : e.1.isEqual L = true
    · simp [he]
    · simp only [Bool.not_eq_true] at he
      simp only [he, Bool.false_eq_true, if_false]
      apply ih
      simpa [he] using h

theorem lookup_overwrite_other (BM : LocationIndexMap) (L K : Location) (v : Nat)
    (h : L.isEqual K = false) :
    LocationIndexMap.lookup
      (BM.map (fun e => if e.1.isEqual L then (e.1, v) else e)) K
      = LocationIndexMap.lookup BM K := by
  induction BM with
  | nil => rfl
  | cons e BM ih =>
    rw [List.map_cons, lookup_cons, lookup_cons, ih]
    by_cases he : e.1.isEqual K = true
    · have h1 : e.1 = K := ((isEqual_iff _ _).1 he).1
      have h2 : e.1.isEqual L = false := by
        rw [h1, isEqual_comm]; exact h
      simp [h2, he]
    · simp only [Bool.not_eq_true] at he
      by_cases h2 : e.1.isEqual L = true
      · simp [h2, he]
      · simp only [Bool.not_eq_true] at h2
        simp [h2, he]

theorem lookup_append (BM1 BM2 : LocationIndexMap) (K : Location) :
    LocationIndexMap.lookup (BM1 ++ BM2) K
      = (LocationIndexMap.lookup BM1 K).or (LocationIndexMap.lookup BM2 K) := by
  induction BM1 with
  | nil => simp [lookup_nil]
  | cons e BM ih =>
    rw [List.cons_append, lookup_cons, lookup_cons, ih]
    cases e.1.isEqual K <;> simp

theorem lookup_eq_none_of_any (BM : LocationIndexMap) (K : Location)
    (h : BM.any (fun e => e.1.isEqual K) = false) : LocationIndexMap.lookup BM K = none := by
  induction BM with
  | nil => rfl
  | cons e BM ih =>
    rw [List.any_cons, Bool.or_eq_false_iff] at h
    rw [lookup_cons, h.1, ih h.2]
    simp

theorem lookup_set (BM : LocationIndexMap) (L K : Location) (v : Nat) :
    (BM.set L v).lookup K = if L.isEqual K then some v else BM.lookup K := by
  unfold LocationIndexMap.set
  by_cases hLK : L.isEqual K = true
  · have hKL : K = L := ((isEqual_iff _ _).1 hLK).1.symm
    subst hKL
    by_cases hany : BM.any (fun e => e.1.isEqual K) = true
    · simp only [hany, if_true, hLK]
      exact lookup_overwrite_same BM K v hany
    · simp only [Bool.not_eq_true] at hany
      simp only [hany, Bool.false_eq_true, if_false, hLK, if_true]
      rw [lookup_append, lookup_eq_none_of_any BM K hany, lookup_cons, hLK]
      simp
  · simp only [Bool.not_eq_true] at hLK
    by_cases hany : BM.any (fun e => e.1.isEqual L) = true
    · simp only [hany, if_true, hLK, Bool.false_eq_true, if_false]
      exact lookup_overwrite_other BM L K v hLK
    · simp only [Bool.not_eq_true] at hany
      simp only [hany, Bool.false_eq_true, if_false, hLK]
      rw [lookup_append, lookup_cons, hLK]
      simp [lookup_nil]

/-! ## The worklist loop, one iteration at a time -/

theorem expandLoop_nil (Mod : SILModule) (Base : SILValue) (b : Bool) (fuel : Nat)
    (Locs : LocationList) : expandLoop Mod Base b fuel [] Locs = some Locs := by
  cases fuel <;> simp [expandLoop]

theorem expandLoop_leaf (Mod : SILModule) (Base : SILValue) (b : Bool) (fuel : Nat)
    (W Locs : LocationList) (L : Location)
    (h : Mod.getFirstLevelProjections (Mod.getType L) = []) :
    expandLoop Mod Base b (fuel + 1) (W ++ [L]) Locs
      = expandLoop Mod Base b fuel W (Locs ++ [L]) := by
  simp [expandLoop, h]

theorem expandLoop_node (Mod : SILModule) (Base : SILValue) (b : Bool) (fuel : Nat)
    (W Locs : LocationList) (L : Location) (path : ProjectionPath)
    (hp : L.Path = some path)
    (h : Mod.getFirstLevelProjections (Mod.getType L) ≠ []) :
    expandLoop Mod Base b (fuel + 1) (W ++ [L]) Locs
      = expandLoop Mod Base b fuel
          (W ++ (Mod.getFirstLevelProjections (Mod.getType L)).map (Location.sub Base path))
          (if b then Locs
            else Locs ++
              (Mod.getFirstLevelProjections (Mod.getType L)).map (Location.sub Base path)) := by
  simp [expandLoop, h, hp]

theorem expandLoop_absent (Mod : SILModule) (Base : SILValue) (b : Bool) (fuel : Nat)
    (W Locs : LocationList) (L : Location) (hp : L.Path = none)
    (h : Mod.getFirstLevelProjections (Mod.getType L) ≠ []) :
    expandLoop Mod Base b (fuel + 1) (W ++ [L]) Locs = none := by
  simp [expandLoop, h, hp]

theorem expandLoop_zero (Mod : SILModule) (Base : SILValue) (b : Bool)
    (W Locs : LocationList) (L : Location) :
    expandLoop Mod Base b 0 (W ++ [L]) Locs = none := by
  simp [expandLoop]

theorem eq_nil_or_snoc (W : LocationList) : W = [] ∨ ∃ W1 L, W = W1 ++ [L] := by
  rcases List.eq_nil_or_concat W with h | ⟨W1, L, h⟩
  · exact Or.inl h
  · exact Or.inr ⟨W1, L, by simpa using h⟩

/-- Every location that the loop emits has a present path when the worklist and the
locations emitted so far have one. -/
theorem expandLoop_present (Mod : SILModule) (Base : SILValue) (b : Bool) (fuel : Nat) :
    ∀ (W Locs out : LocationList),
      (∀ X ∈ W, X.Path.isSome = true) → (∀ X ∈ Locs, X.Path.isSome = true) →
      expandLoop Mod Base b fuel W Locs = some out → ∀ X ∈ out, X.Path.isSome = true := by
  induction fuel with
  | zero =>
    intro W Locs out _ hL h
    rcases eq_nil_or_snoc W with rfl | ⟨W1, L, rfl⟩
    · rw [expandLoop_nil] at h; cases h; exact hL
    · rw [expandLoop_zero] at h; cases h
  | succ n ih =>
    intro W Locs out hW hL h
    rcases eq_nil_or_snoc W with rfl | ⟨W1, L, rfl⟩
    · rw [expandLoop_nil] at h; cases h; exact hL
    · have hW1 : ∀ X ∈ W1, X.Path.isSome = true := fun X hX =>
        hW X (List.mem_append_left _ hX)
      have hLp : L.Path.isSome = true := hW L (by simp)
      by_cases hleaf : Mod.getFirstLevelProjections (Mod.getType L) = []
      · rw [expandLoop_leaf _ _ _ _ _ _ _ hleaf] at h
        refine ih W1 (Locs ++ [L]) out hW1 ?_ h
        intro X hX
        rcases List.mem_append.1 hX with hX | hX
        · exact hL X hX
        · rw [List.mem_singleton.1 hX]; exact hLp
      · obtain ⟨path, hpath⟩ := Option.isSome_iff_exists.1 hLp
        rw [expandLoop_node _ _ _ _ _ _ _ path hpath hleaf] at h
        have hsub : ∀ X ∈ (Mod.getFirstLevelProjections (Mod.getType L)).map
            (Location.sub Base path), X.Path.isSome = true := by
          intro X hX
          obtain ⟨P, _, rfl⟩ := List.mem_map.1 hX
          rfl
        refine ih _ _ out ?_ ?_ h
        · intro X hX
          rcases List.mem_append.1 hX with hX | hX
          · exact hW1 X hX
          · exact hsub X hX
        · intro X hX
          cases b with
          | true => exact hL X hX
          | false =>
            rcases List.mem_append.1 hX with hX | hX
            · exact hL X hX
            · exact hsub X hX

theorem expand_present (Mod : SILModule) (L : Location) (b : Bool) (fuel : Nat)
    (out : LocationList) (hL : L.Path.isSome = true)
    (h : L.expand Mod fuel [] b = some out) : ∀ X ∈ out, X.Path.isSome = true := by
  unfold Location.expand at h
  refine expandLoop_present Mod L.Base b fuel [L] _ out ?_ ?_ h
  · intro X hX; rw [List.mem_singleton.1 hX]; exact hL
  · intro X hX
    cases b with
    | true => simp at hX
    | false =>
      simp at hX
      rw [hX]; exact hL

/-! ## The enumeration loop -/

theorem enumerateLoop_LV (Locs : LocationList) :
    ∀ V : Vault, (enumerateLoop Locs V).LV = V.LV ++ Locs := by
  induction Locs with
  | nil => intro V; simp [enumerateLoop]
  | cons Loc rest ih => intro V; simp [enumerateLoop, ih]

theorem lookup_present (BM : LocationIndexMap) (K : Location) (i : Nat)
    (h : BM.lookup K = some i) : K.Path.isSome = true := by
  induction BM with
  | nil => simp [lookup_nil] at h
  | cons e BM ih =>
    rw [lookup_cons] at h
    by_cases he : e.1.isEqual K = true
    · exact ((isEqual_iff _ _).1 he).2
    · simp only [Bool.not_eq_true] at he
      simp only [he, Bool.false_eq_true, if_false] at h
      exact ih h

theorem enumerateLoop_lookup_other (Locs : LocationList) (K : Location)
    (hK : K ∉ Locs) :
    ∀ V : Vault, (enumerateLoop Locs V).BM.lookup K = V.BM.lookup K := by
  induction Locs with
  | nil => intro V; simp [enumerateLoop]
  | cons Loc rest ih =>
    intro V
    have h1 : Loc ≠ K := fun h => hK (by simp [h])
    have h2 : K ∉ rest := fun h => hK (by simp [h])
    have h3 : Loc.isEqual K = false := by
      cases h : Loc.isEqual K with
      | false => rfl
      | true => exact absurd ((isEqual_iff _ _).1 h).1 h1
    simp only [enumerateLoop]
    rw [ih h2, lookup_set, h3]
    simp

theorem enumerateLoop_lookup_mem (Locs : LocationList) (K : Location)
    (hp : K.Path.isSome = true) (hK : K ∈ Locs) :
    ∀ V : Vault, ∃ j, (enumerateLoop Locs V).BM.lookup K = some j ∧ V.LV.length ≤ j ∧
      (V.LV ++ Locs)[j]? = some K := by
  induction Locs with
  | nil => simp at hK
  | cons Loc rest ih =>
    intro V
    simp only [enumerateLoop]
    by_cases hr : K ∈ rest
    · obtain ⟨j, h1, h2, h3⟩ := ih hr { LV := V.LV ++ [Loc], BM := V.BM.set Loc V.LV.length }
      refine ⟨j, h1, ?_, ?_⟩
      · simp at h2; omega
      · simpa using h3
    · have hKL : K = Loc := by
        rcases List.mem_cons.1 hK with h | h
        · exact h
        · exact absurd h hr
      subst hKL
      refine ⟨V.LV.length, ?_, le_refl _, ?_⟩
      · rw [enumerateLoop_lookup_other rest K hr, lookup_set]
        have : K.isEqual K = true := (isEqual_iff _ _).2 ⟨rfl, hp⟩
        simp [this]
      · rw [List.getElem?_append_right (le_refl _)]
        simp

theorem enumerateLoop_injective (Locs : LocationList) :
    ∀ V : Vault, VaultInjective V → VaultInjective (enumerateLoop Locs V) := by
  induction Locs with
  | nil => intro V h; simpa [enumerateLoop] using h
  | cons Loc rest ih =>
    intro V h
    simp only [enumerateLoop]
    apply ih
    obtain ⟨hinj, hlt⟩ := h
    constructor
    · intro K1 K2 i h1 h2
      simp only [lookup_set] at h1 h2
      by_cases e1 : Loc.isEqual K1 = true
      · by_cases e2 : Loc.isEqual K2 = true
        · exact ((isEqual_iff _ _).1 e1).1.symm.trans ((isEqual_iff _ _).1 e2).1
        · simp only [e1, if_true, Option.some.injEq] at h1
          simp only [e2, Bool.false_eq_true, if_false] at h2
          have := hlt K2 i h2
          omega
      · by_cases e2 : Loc.isEqual K2 = true
        · simp only [e2, if_true, Option.some.injEq] at h2
          simp only [e1, Bool.false_eq_true, if_false] at h1
          have := hlt K1 i h1
          omega
        · simp only [e1, Bool.false_eq_true, if_false] at h1
          simp only [e2, Bool.false_eq_true, if_false] at h2
          exact hinj K1 K2 i h1 h2
    · intro K i h1
      simp only [lookup_set] at h1
      simp only [List.length_append, List.length_singleton]
      by_cases e1 : Loc.isEqual K = true
      · simp only [e1, if_true, Option.some.injEq] at h1
        omega
      · simp only [e1, Bool.false_eq_true, if_false] at h1
        have := hlt K i h1
        omega

/-! ## Enumeration of one memory reference -/

theorem enumerateLocation_cases (Mod : SILModule) (R : AddressOracle) (b : Bool) (fuel : Nat)
    (Mem : SILValue) (V V1 : Vault)
    (h : Location.enumerateLocation Mod R b fuel Mem V = some V1) :
    ∃ Locs, V1 = enumerateLoop Locs V ∧ (∀ X ∈ Locs, X.Path.isSome = true) ∧
      (Locs = [] ∨ (Location.ofValue R Mem).expand Mod fuel [] b = some Locs) := by
  unfold Location.enumerateLocation at h
  simp only at h
  by_cases hskip : (!(Location.ofValue R Mem).Base.isSome ||
      !(Location.ofValue R Mem).Path.isSome) = true
  · rw [if_pos hskip] at h
    cases h
    exact ⟨[], rfl, by simp, Or.inl rfl⟩
  · rw [if_neg hskip] at h
    have hp : (Location.ofValue R Mem).Path.isSome = true := by
      cases hq : (Location.ofValue R Mem).Path.isSome with
      | true => rfl
      | false => simp [hq] at hskip
    cases he : (Location.ofValue R Mem).expand Mod fuel [] b with
    | none => rw [he] at h; cases h
    | some Locs =>
      rw [he] at h
      cases h
      exact ⟨Locs, rfl, expand_present Mod _ b fuel Locs hp he, Or.inr rfl⟩

/-- C8 as stated fails: `locA` is a key with index `0`; enumerating the reference to
field `fieldA` once more appends `locA` again and moves its index, whether the expansion
keeps leaves only (new index `1`) or all nodes (new index `2`). -/
theorem enumerateLocation_reindexes :
    LocationIndexMap.lookup [(locA, 0)] locA = some 0 ∧
      Location.enumerateLocation twoFieldModule twoFieldOracle true 1 (some 1)
          { LV := [locA], BM := [(locA, 0)] }
        = some { LV := [locA, locA], BM := [(locA, 1)] } ∧
      Location.enumerateLocation twoFieldModule twoFieldOracle false 1 (some 1)
          { LV := [locA], BM := [(locA, 0)] }
        = some { LV := [locA, locA, locA], BM := [(locA, 2)] } ∧
      LocationIndexMap.lookup [(locA, 1)] locA = some 1 ∧
      LocationIndexMap.lookup [(locA, 2)] locA = some 2 := by
  decide

/-! ## Index injectivity -/

theorem enumerateLocation_injective (Mod : SILModule) (R : AddressOracle) (b : Bool)
    (fuel : Nat) (Mem : SILValue) (V V1 : Vault) (hV : VaultInjective V)
    (h : Location.enumerateLocation Mod R b fuel Mem V = some V1) : VaultInjective V1 := by
  obtain ⟨Locs, rfl, _, _⟩ := enumerateLocation_cases Mod R b fuel Mem V V1 h
  exact enumerateLoop_injective Locs V hV

theorem enumerateInsts_injective (Mod : SILModule) (R : AddressOracle) (b : Bool)
    (fuel : Nat) (Is : List SILInstruction) :
    ∀ V V1 : Vault, VaultInjective V →
      enumerateInsts Mod R b fuel Is V = some V1 → VaultInjective V1 := by
  induction Is with
  | nil => intro V V1 hV h; simp [enumerateInsts] at h; subst h; exact hV
  | cons I rest ih =>
    intro V V1 hV h
    simp only [enumerateInsts] at h
    cases hI : enumerateInst Mod R b fuel I V with
    | none => rw [hI] at h; cases h
    | some V2 =>
      rw [hI] at h
      refine ih V2 V1 ?_ h
      cases I with
      | LoadInst Operand => exact enumerateLocation_injective Mod R b fuel _ V V2 hV hI
      | StoreInst Src Dest => exact enumerateLocation_injective Mod R b fuel _ V V2 hV hI
      | Other => simp [enumerateInst] at hI; subst hI; exact hV

theorem emptyVault_injective : VaultInjective emptyVault :=
  ⟨fun _ _ _ h => by simp [emptyVault, lookup_nil] at h,
   fun _ _ h => by simp [emptyVault, lookup_nil] at h⟩

/-- C10: index injectivity (no two distinct keys share an index, every stored index is
below the length of the location list) is preserved by `enumerateLocation` and by
`enumerateLocations`, and holds for every vault that `enumerateLocations` builds from the
empty vault. -/
theorem enumerate_preserves_injective (Mod : SILModule) (R : AddressOracle) (b : Bool)
    (fuel : Nat) (V : Vault) (hV : VaultInjective V) :
    (∀ Mem V1, Location.enumerateLocation Mod R b fuel Mem V = some V1 →
        VaultInjective V1) ∧
      (∀ F V1, Location.enumerateLocations Mod R b fuel F V = some V1 →
        VaultInjective V1) ∧
      (∀ F V1, Location.enumerateLocations Mod R b fuel F emptyVault = some V1 →
        VaultInjective V1) :=
  ⟨fun Mem V1 h => enumerateLocation_injective Mod R b fuel Mem V V1 hV h,
   fun F V1 h => enumerateInsts_injective Mod R b fuel F.flatten V V1 hV h,
   fun F V1 h => enumerateInsts_injective Mod R b fuel F.flatten emptyVault V1
     emptyVault_injective h⟩

theorem enumerate_preserves_injective_witness :
    VaultInjective { LV := [locA], BM := [(locA, 0)] } ∧
      VaultInjective { LV := [locA, locB], BM := [(locA, 0), (locB, 1)] } :=
  ⟨(enumerate_preserves_injective twoFieldModule twoFieldOracle true 1 emptyVault
      ⟨fun _ _ _ h => by simp [emptyVault, lookup_nil] at h,
       fun _ _ h => by simp [emptyVault, lookup_nil] at h⟩).1 (some 1) _ (by decide),
   (enumerate_preserves_injective twoFieldModule twoFieldOracle true 1 emptyVault
      ⟨fun _ _ _ h => by simp [emptyVault, lookup_nil] at h,
       fun _ _ h => by simp [emptyVault, lookup_nil] at h⟩).2.1
      [[.LoadInst (some 1), .StoreInst (some 7) (some 2)]] _ (by decide)⟩

/-! ## The vault built from the empty vault -/

theorem keys_overwrite (BM : LocationIndexMap) (L : Location) (v : Nat) :
    LocationIndexMap.keys (BM.map (fun e => if e.1.isEqual L then (e.1, v) else e))
      = LocationIndexMap.keys BM := by
  unfold LocationIndexMap.keys
  rw [List.map_map]
  apply List.map_congr_left
  intro e _
  simp only [Function.comp]
  split <;> rfl

theorem any_isEqual_iff (BM : LocationIndexMap) (L : Location) (hL : L.Path.isSome = true) :
    BM.any (fun e => e.1.isEqual L) = true ↔ L ∈ LocationIndexMap.keys BM := by
  unfold LocationIndexMap.keys
  rw [List.any_eq_true, List.mem_map]
  constructor
  · rintro ⟨e, he, h⟩
    exact ⟨e, he, ((isEqual_iff _ _).1 h).1⟩
  · rintro ⟨e, he, h⟩
    exact ⟨e, he, (isEqual_iff _ _).2 ⟨h, hL⟩⟩

theorem vaultLinked_step (V : Vault) (Loc : Location) (hLoc : Loc.Path.isSome = true)
    (hV : VaultLinked V) :
    VaultLinked { LV := V.LV ++ [Loc], BM := V.BM.set Loc V.LV.length } := by
  obtain ⟨hent, hnd, hsub⟩ := hV
  have hold : ∀ e ∈ V.BM, (V.LV ++ [Loc])[e.2]? = some e.1 := by
    intro e he
    have h1 := (hent e he).2
    have hlt : e.2 < V.LV.length := by
      rcases Nat.lt_or_ge e.2 V.LV.length with h | h
      · exact h
      · rw [List.getElem?_eq_none h] at h1; cases h1
    rw [List.getElem?_append_left hlt]
    exact h1
  have hnew : (V.LV ++ [Loc])[V.LV.length]? = some Loc := by
    rw [List.getElem?_append_right (le_refl _)]
    simp
  unfold LocationIndexMap.set
  by_cases hany : V.BM.any (fun e => e.1.isEqual Loc) = true
  · simp only [hany, if_true]
    refine ⟨?_, ?_, ?_⟩
    · intro e1 he1
      obtain ⟨e, he, rfl⟩ := List.mem_map.1 he1
      by_cases hq : e.1.isEqual Loc = true
      · simp only [hq, if_true]
        have : e.1 = Loc := ((isEqual_iff _ _).1 hq).1
        rw [this]
        exact ⟨hLoc, hnew⟩
      · simp only [hq, Bool.false_eq_true, if_false]
        exact ⟨(hent e he).1, hold e he⟩
    · simp only [keys_overwrite]
      exact hnd
    · intro K hK
      simp only [keys_overwrite]
      rcases List.mem_append.1 hK with hK | hK
      · exact hsub K hK
      · rw [List.mem_singleton.1 hK]
        exact (any_isEqual_iff V.BM Loc hLoc).1 hany
  · simp only [hany, Bool.false_eq_true, if_false]
    have hnot : Loc ∉ LocationIndexMap.keys V.BM := fun h =>
      hany ((any_isEqual_iff V.BM Loc hLoc).2 h)
    have hkeys : LocationIndexMap.keys (V.BM ++ [(Loc, V.LV.length)])
        = LocationIndexMap.keys V.BM ++ [Loc] := by
      simp [LocationIndexMap.keys]
    refine ⟨?_, ?_, ?_⟩
    · intro e he
      rcases List.mem_append.1 he with he | he
      · exact ⟨(hent e he).1, hold e he⟩
      · rw [List.mem_singleton.1 he]
        exact ⟨hLoc, hnew⟩
    · rw [hkeys]
      exact List.Nodup.append hnd (List.nodup_singleton _) (by simpa using hnot)
    · intro K hK
      rw [hkeys]
      rcases List.mem_append.1 hK with hK | hK
      · exact List.mem_append_left _ (hsub K hK)
      · exact List.mem_append_right _ hK

theorem enumerateLoop_linked (Locs : LocationList) :
    ∀ V : Vault, (∀ X ∈ Locs, X.Path.isSome = true) → VaultLinked V →
      VaultLinked (enumerateLoop Locs V) := by
  induction Locs with
  | nil => intro V _ h; simpa [enumerateLoop] using h
  | cons Loc rest ih =>
    intro V hp h
    simp only [enumerateLoop]
    apply ih
    · intro X hX; exact hp X (List.mem_cons_of_mem _ hX)
    · exact vaultLinked_step V Loc (hp Loc (List.mem_cons_self _ _)) h

theorem enumerateInsts_linked (Mod : SILModule) (R : AddressOracle) (b : Bool)
    (fuel : Nat) (Is : List SILInstruction) :
    ∀ V V1 : Vault, VaultLinked V →
      enumerateInsts Mod R b fuel Is V = some V1 → VaultLinked V1 := by
  have one : ∀ (Mem : SILValue) (V V2 : Vault), VaultLinked V →
      Location.enumerateLocation Mod R b fuel Mem V = some V2 → VaultLinked V2 := by
    intro Mem V V2 hV h
    obtain ⟨Locs, rfl, hp, _⟩ := enumerateLocation_cases Mod R b fuel Mem V V2 h
    exact enumerateLoop_linked Locs V hp hV
  induction Is with
  | nil => intro V V1 hV h; simp [enumerateInsts] at h; subst h; exact hV
  | cons I rest ih =>
    intro V V1 hV h
    simp only [enumerateInsts] at h
    cases hI : enumerateInst Mod R b fuel I V with
    | none => rw [hI] at h; cases h
    | some V2 =>
      rw [hI] at h
      refine ih V2 V1 ?_ h
      cases I with
      | LoadInst Operand => exact one _ V V2 hV hI
      | StoreInst Src Dest => exact one _ V V2 hV hI
      | Other => simp [enumerateInst] at hI; subst hI; exact hV

theorem lookup_of_mem_keys (BM : LocationIndexMap) (K : Location)
    (hK : K ∈ LocationIndexMap.keys BM) (hp : K.Path.isSome = true) :
    ∃ j, BM.lookup K = some j ∧ (K, j) ∈ BM := by
  induction BM with
  | nil => simp [LocationIndexMap.keys] at hK
  | cons e BM ih =>
    rw [lookup_cons]
    by_cases he : e.1.isEqual K = true
    · refine ⟨e.2, by simp [he], ?_⟩
      have : e.1 = K := ((isEqual_iff _ _).1 he).1
      rw [← this]
      exact List.mem_cons_self _ _
    · have hne : e.1 ≠ K := fun h => he ((isEqual_iff _ _).2 ⟨h, hp⟩)
      have hK1 : K ∈ LocationIndexMap.keys BM := by
        simp only [LocationIndexMap.keys, List.map_cons, List.mem_cons] at hK
        rcases hK with h | h
        · exact absurd h.symm hne
        · exact h
      obtain ⟨j, h1, h2⟩ := ih hK1
      exact ⟨j, by simp [he, h1], List.mem_cons_of_mem _ h2⟩

/-- C9 as stated fails: two loads of the same reference list `locA` twice (leaf-only
expansion), and with all nodes kept one load already does; the list is then longer than
the key list and index `0` is not assigned to any key. -/
theorem enumerateLocations_duplicates :
    Location.enumerateLocations twoFieldModule twoFieldOracle true 1
        [[.LoadInst (some 1), .LoadInst (some 1)]] emptyVault
      = some { LV := [locA, locA], BM := [(locA, 1)] } ∧
    Location.enumerateLocations twoFieldModule twoFieldOracle false 1
        [[.LoadInst (some 1)]] emptyVault
      = some { LV := [locA, locA], BM := [(locA, 1)] } ∧
    ¬ [locA, locA].Nodup ∧
    [locA, locA].length ≠ (LocationIndexMap.keys [(locA, 1)]).length ∧
    LocationIndexMap.lookup [(locA, 1)] locA = some 1 := by
  decide

/-! ## Structure of the decomposition tree -/

theorem mem_children_iff (Mod : SILModule) (N c : Location) :
    c ∈ N.children Mod ↔ ∃ path P, N.Path = some path ∧
      P ∈ Mod.getFirstLevelProjections (Mod.getType N) ∧
      c = { Base := N.Base, Path := some (P :: path) } := by
  unfold Location.children
  cases hp : N.Path with
  | none => simp
  | some path =>
    simp only [List.mem_map, Location.sub]
    constructor
    · rintro ⟨P, hP, rfl⟩
      exact ⟨path, P, rfl, hP, rfl⟩
    · rintro ⟨path1, P, h1, hP, rfl⟩
      cases h1
      exact ⟨P, hP, rfl⟩

theorem children_eq_nil_iff (Mod : SILModule) (N : Location) (hN : N.Path.isSome = true) :
    N.children Mod = [] ↔ Mod.getFirstLevelProjections (Mod.getType N) = [] := by
  obtain ⟨path, hp⟩ := Option.isSome_iff_exists.1 hN
  unfold Location.children
  rw [hp]
  simp

theorem children_present (Mod : SILModule) (N c : Location) (h : c ∈ N.children Mod) :
    c.Path.isSome = true ∧ c.Base = N.Base ∧ N.Path.isSome = true := by
  obtain ⟨path, P, hp, _, rfl⟩ := (mem_children_iff Mod N c).1 h
  simp [hp]

theorem parent_unique (Mod : SILModule) (P1 P2 c : Location)
    (h1 : c ∈ P1.children Mod) (h2 : c ∈ P2.children Mod) : P1 = P2 := by
  obtain ⟨path1, Q1, hp1, _, e1⟩ := (mem_children_iff Mod P1 c).1 h1
  obtain ⟨path2, Q2, hp2, _, e2⟩ := (mem_children_iff Mod P2 c).1 h2
  rw [e1] at e2
  obtain ⟨b1, q1⟩ := P1
  obtain ⟨b2, q2⟩ := P2
  simp only at hp1 hp2
  simp only [Location.mk.injEq, Option.some.injEq, List.cons.injEq] at e2
  simp only [Location.mk.injEq]
  exact ⟨e2.1, by rw [hp1, hp2, e2.2.2]⟩

/-- The path of a node below `N` ends with the path of `N`. -/
theorem below_path (Mod : SILModule) (N X : Location) (h : Below Mod N X) :
    X = N ∨ ∃ path q, N.Path = some path ∧ q ≠ [] ∧
      X = { Base := N.Base, Path := some (q ++ path) } := by
  induction h with
  | self N => exact Or.inl rfl
  | @step N c X hc _ ih =>
    obtain ⟨path, P, hp, _, rfl⟩ := (mem_children_iff Mod N c).1 hc
    right
    rcases ih with rfl | ⟨path1, q, h1, _, rfl⟩
    · exact ⟨path, [P], hp, by simp, rfl⟩
    · simp only [Option.some.injEq] at h1
      subst h1
      exact ⟨path, q ++ [P], hp, by simp, by simp⟩

theorem below_present (Mod : SILModule) (N X : Location) (hN : N.Path.isSome = true)
    (h : Below Mod N X) : X.Path.isSome = true ∧ X.Base = N.Base := by
  rcases below_path Mod N X h with rfl | ⟨path, q, _, _, rfl⟩
  · exact ⟨hN, rfl⟩
  · exact ⟨rfl, rfl⟩

theorem below_trans (Mod : SILModule) (A B C : Location) (h1 : Below Mod A B)
    (h2 : Below Mod B C) : Below Mod A C := by
  induction h1 with
  | self N => exact h2
  | step hc _ ih => exact Below.step hc (ih h2)

theorem below_child (Mod : SILModule) (M P c : Location) (h : Below Mod M P)
    (hc : c ∈ P.children Mod) : Below Mod M c :=
  below_trans Mod M P c h (Below.step hc (Below.self c))

/-- A node of the tree under `M` is `M` or a first-level location of a node of the tree. -/
theorem below_cases (Mod : SILModule) (M X : Location) (h : Below Mod M X) :
    X = M ∨ ∃ P, Below Mod M P ∧ X ∈ P.children Mod := by
  induction h with
  | self N => exact Or.inl rfl
  | @step N c X hc _ ih =>
    right
    rcases ih with rfl | ⟨P, hP, hX⟩
    · exact ⟨N, Below.self N, hc⟩
    · exact ⟨P, Below.step hc hP, hX⟩

theorem below_leaf (Mod : SILModule) (N X : Location) (hN : N.children Mod = [])
    (h : Below Mod N X) : X = N := by
  cases h with
  | self => rfl
  | step hc _ => rw [hN] at hc; cases hc

/-- No node of the tree under `c`, a first-level location of `N`, is `N` or above `N`. -/
theorem not_below_of_child (Mod : SILModule) (N c X : Location) (hc : c ∈ N.children Mod)
    (h1 : Below Mod c X) (h2 : Below Mod X N) : False := by
  obtain ⟨path, P, hp, _, rfl⟩ := (mem_children_iff Mod N c).1 hc
  have hlen : ∀ A B : Location, Below Mod A B → ∀ pa pb, A.Path = some pa → B.Path = some pb →
      pa.length ≤ pb.length := by
    intro A B hAB pa pb ha hb
    rcases below_path Mod A B hAB with rfl | ⟨path1, q, h3, _, rfl⟩
    · rw [ha] at hb; cases hb; exact le_refl _
    · rw [ha] at h3; cases h3
      simp only [Option.some.injEq] at hb
      subst hb
      simp
  have hX := below_present Mod { Base := N.Base, Path := some (P :: path) } X rfl h1
  obtain ⟨px, hpx⟩ := Option.isSome_iff_exists.1 hX.1
  have l1 := hlen _ _ h1 (P :: path) px rfl hpx
  have l2 := hlen _ _ h2 px path hpx hp
  simp at l1
  omega

theorem child_ne_parent (Mod : SILModule) (N c : Location) (hc : c ∈ N.children Mod) :
    c ≠ N := by
  intro h
  subst h
  exact not_below_of_child Mod c c c hc (Below.self c) (Below.self c)

/-- The trees under two different first-level locations of one node share no node. -/
theorem below_siblings (Mod : SILModule) (N c1 c2 X : Location)
    (h1 : c1 ∈ N.children Mod) (h2 : c2 ∈ N.children Mod)
    (b1 : Below Mod c1 X) (b2 : Below Mod c2 X) : c1 = c2 := by
  obtain ⟨path, P1, hp, _, rfl⟩ := (mem_children_iff Mod N c1).1 h1
  obtain ⟨path2, P2, hp2, _, rfl⟩ := (mem_children_iff Mod N c2).1 h2
  rw [hp] at hp2
  cases hp2
  have key : ∀ (Q : Projection) (Y : Location),
      Below Mod { Base := N.Base, Path := some (Q :: path) } Y →
      ∃ q, Y.Path = some (q ++ Q :: path) := by
    intro Q Y hY
    rcases below_path Mod _ Y hY with rfl | ⟨path1, q, h3, _, rfl⟩
    · exact ⟨[], rfl⟩
    · simp only [Option.some.injEq] at h3
      subst h3
      exact ⟨q, rfl⟩
  obtain ⟨q1, e1⟩ := key P1 X b1
  obtain ⟨q2, e2⟩ := key P2 X b2
  rw [e1] at e2
  simp only [Option.some.injEq] at e2
  have := List.append_inj_right' e2 (by simp)
  simp only [List.cons.injEq, and_true] at this
  rw [this]

theorem finiteTree_children (Mod : SILModule) (N : Location) (h : FiniteTree Mod N) :
    ∀ c ∈ N.children Mod, FiniteTree Mod c := by
  cases h with
  | node _ h => exact h

theorem finiteTree_below (Mod : SILModule) (N X : Location) (hN : FiniteTree Mod N)
    (h : Below Mod N X) : FiniteTree Mod X := by
  induction h with
  | self N => exact hN
  | step hc _ ih => exact ih (finiteTree_children Mod _ hN _ hc)

theorem heightLE_mono (Mod : SILModule) (d : Nat) :
    ∀ (e : Nat) (N : Location), d ≤ e → heightLE Mod d N = true → heightLE Mod e N = true := by
  induction d with
  | zero => intro e N _ h; simp [heightLE] at h
  | succ d ih =>
    intro e N hle h
    obtain ⟨e1, rfl⟩ : ∃ e1, e = e1 + 1 := ⟨e - 1, by omega⟩
    simp only [heightLE, List.all_eq_true] at h ⊢
    intro c hc
    exact ih e1 c (by omega) (h c hc)

theorem heightLE_of_finiteTree (Mod : SILModule) (N : Location) (h : FiniteTree Mod N) :
    ∃ d, heightLE Mod d N = true := by
  induction h with
  | node L _ ih =>
    have hall : ∀ cs : List Location, (∀ c ∈ cs, ∃ d, heightLE Mod d c = true) →
        ∃ d, ∀ c ∈ cs, heightLE Mod d c = true := by
      intro cs
      induction cs with
      | nil => intro _; exact ⟨0, by simp⟩
      | cons c cs ihc =>
        intro hcs
        obtain ⟨d1, h1⟩ := hcs c (List.mem_cons_self _ _)
        obtain ⟨d2, h2⟩ := ihc (fun x hx => hcs x (List.mem_cons_of_mem _ hx))
        refine ⟨max d1 d2, ?_⟩
        intro x hx
        rcases List.mem_cons.1 hx with rfl | hx
        · exact heightLE_mono Mod d1 _ x (le_max_left _ _) h1
        · exact heightLE_mono Mod d2 _ x (le_max_right _ _) (h2 x hx)
    obtain ⟨d, hd⟩ := hall (L.children Mod) ih
    exact ⟨d + 1, by simpa [heightLE] using hd⟩

theorem finiteTree_of_heightLE (Mod : SILModule) (d : Nat) :
    ∀ N : Location, heightLE Mod d N = true → FiniteTree Mod N := by
  induction d with
  | zero => intro N h; simp [heightLE] at h
  | succ d ih =>
    intro N h
    simp only [heightLE, List.all_eq_true] at h
    exact FiniteTree.node N (fun c hc => ih c (h c hc))

/-! ## What the worklist loop emits -/

theorem children_eq_map (Mod : SILModule) (N : Location) (path : ProjectionPath)
    (hp : N.Path = some path) :
    N.children Mod
      = (Mod.getFirstLevelProjections (Mod.getType N)).map (Location.sub N.Base path) := by
  unfold Location.children
  rw [hp]

/-- With enough fuel the loop handles the whole subtree of the location on top of the
worklist and emits `subtreeLocs` for it. -/
theorem expandLoop_subtree (Mod : SILModule) (Base : SILValue) (b : Bool) (d : Nat) :
    ∀ N : Location, heightLE Mod d N = true → N.Path.isSome = true → N.Base = Base →
      ∃ n, ∀ (k : Nat) (W Locs : LocationList),
        expandLoop Mod Base b (k + n) (W ++ [N]) Locs
          = expandLoop Mod Base b k W (Locs ++ subtreeLocs Mod b d N) := by
  induction d with
  | zero => intro N h; simp [heightLE] at h
  | succ d ih =>
    intro N hh hN hB
    simp only [heightLE, List.all_eq_true] at hh
    obtain ⟨path, hp⟩ := Option.isSome_iff_exists.1 hN
    have hlist : ∀ cs : List Location,
        (∀ c ∈ cs, heightLE Mod d c = true ∧ c.Path.isSome = true ∧ c.Base = Base) →
        ∃ n, ∀ (k : Nat) (W Locs : LocationList),
          expandLoop Mod Base b (k + n) (W ++ cs) Locs
            = expandLoop Mod Base b k W
                (Locs ++ cs.reverse.flatMap (subtreeLocs Mod b d)) := by
      intro cs
      induction cs using List.reverseRecOn with
      | nil => intro _; exact ⟨0, by simp⟩
      | append_singleton cs c ihc =>
        intro hcs
        obtain ⟨n1, h1⟩ := ihc (fun x hx => hcs x (List.mem_append_left _ hx))
        obtain ⟨hc1, hc2, hc3⟩ := hcs c (by simp)
        obtain ⟨n2, h2⟩ := ih c hc1 hc2 hc3
        refine ⟨n1 + n2, ?_⟩
        intro k W Locs
        rw [← List.append_assoc, ← Nat.add_assoc, h2, h1]
        simp [List.flatMap_append]
    by_cases hleaf : Mod.getFirstLevelProjections (Mod.getType N) = []
    · refine ⟨1, ?_⟩
      intro k W Locs
      have hc : N.children Mod = [] := (children_eq_nil_iff Mod N hN).2 hleaf
      rw [expandLoop_leaf _ _ _ _ _ _ _ hleaf]
      simp [subtreeLocs, hc]
    · have hc : N.children Mod ≠ [] := fun h => hleaf ((children_eq_nil_iff Mod N hN).1 h)
      obtain ⟨n, hn⟩ := hlist (N.children Mod) (fun c hc1 =>
        ⟨hh c hc1, (children_present Mod N c hc1).1,
          (children_present Mod N c hc1).2.1.trans hB⟩)
      refine ⟨n + 1, ?_⟩
      intro k W Locs
      rw [← Nat.add_assoc, expandLoop_node _ _ _ _ _ _ _ path hp hleaf, ← hB,
        ← children_eq_map Mod N path hp, hB, hn]
      cases b <;> simp [subtreeLocs, hc]

/-- The function `expand` returns once the fuel covers the tree: it appends the location
itself (unless only leaves are kept) and then what the loop emits. -/
theorem expand_eq (Mod : SILModule) (b : Bool) (d : Nat) (L : Location)
    (hh : heightLE Mod d L = true) (hL : L.Path.isSome = true) :
    ∃ n, ∀ fuel, n ≤ fuel → ∀ Locs : LocationList,
      L.expand Mod fuel Locs b
        = some (Locs ++ ((if b then [] else [L]) ++ subtreeLocs Mod b d L)) := by
  obtain ⟨n, hn⟩ := expandLoop_subtree Mod L.Base b d L hh hL rfl
  refine ⟨n, ?_⟩
  intro fuel hle Locs
  obtain ⟨k, rfl⟩ : ∃ k, fuel = k + n := ⟨fuel - n, by omega⟩
  unfold Location.expand
  have := hn k [] (if b then Locs else Locs ++ [L])
  simp only [List.nil_append] at this
  rw [this, expandLoop_nil]
  cases b <;> simp

/-! ## The emitted locations as nodes of the tree -/

theorem children_nodup (Mod : SILModule) (N : Location)
    (hnd : ∀ T, (Mod.getFirstLevelProjections T).Nodup) : (N.children Mod).Nodup := by
  unfold Location.children
  cases hp : N.Path with
  | none => simp
  | some path =>
    apply List.Nodup.map _ (hnd _)
    intro P1 P2 h
    simp only [Location.sub, Location.mk.injEq, Option.some.injEq, List.cons.injEq] at h
    exact h.2.1

theorem below_antisymm (Mod : SILModule) (A B : Location) (h1 : Below Mod A B)
    (h2 : Below Mod B A) : A = B := by
  cases h1 with
  | self => rfl
  | step hc h => exact (not_below_of_child Mod A _ B hc h h2).elim

theorem mem_subtreeLocs_leaves (Mod : SILModule) (d : Nat) :
    ∀ N X : Location, heightLE Mod d N = true → N.Path.isSome = true →
      (X ∈ subtreeLocs Mod true d N ↔ IsLeafOf Mod N X) := by
  induction d with
  | zero => intro N X h; simp [heightLE] at h
  | succ d ih =>
    intro N X hh hN
    simp only [heightLE, List.all_eq_true] at hh
    by_cases hc : N.children Mod = []
    · simp only [subtreeLocs, hc, List.isEmpty_nil, if_true, List.mem_singleton]
      constructor
      · rintro rfl
        exact ⟨Below.self _, (children_eq_nil_iff Mod _ hN).1 hc⟩
      · rintro ⟨hb, _⟩
        exact below_leaf Mod N X hc hb
    · have hc1 : (N.children Mod).isEmpty = false := by
        cases h : N.children Mod with
        | nil => exact absurd h hc
        | cons _ _ => rfl
      simp only [subtreeLocs, hc1, Bool.false_eq_true, if_false, if_true, List.nil_append,
        List.mem_flatMap, List.mem_reverse]
      constructor
      · rintro ⟨c, hcm, hX⟩
        obtain ⟨hb, hl⟩ := (ih c X (hh c hcm) (children_present Mod N c hcm).1).1 hX
        exact ⟨Below.step hcm hb, hl⟩
      · rintro ⟨hb, hl⟩
        cases hb with
        | self => exact absurd ((children_eq_nil_iff Mod _ hN).2 hl) hc
        | @step _ c _ hcm hb1 =>
          exact ⟨c, hcm, (ih c X (hh c hcm) (children_present Mod N c hcm).1).2 ⟨hb1, hl⟩⟩

theorem nodup_subtreeLocs_leaves (Mod : SILModule)
    (hnd : ∀ T, (Mod.getFirstLevelProjections T).Nodup) (d : Nat) :
    ∀ N : Location, heightLE Mod d N = true → N.Path.isSome = true →
      (subtreeLocs Mod true d N).Nodup := by
  induction d with
  | zero => intro N h; simp [heightLE] at h
  | succ d ih =>
    intro N hh hN
    simp only [heightLE, List.all_eq_true] at hh
    by_cases hc : N.children Mod = []
    · simp [subtreeLocs, hc]
    · have hc1 : (N.children Mod).isEmpty = false := by
        cases h : N.children Mod with
        | nil => exact absurd h hc
        | cons _ _ => rfl
      simp only [subtreeLocs, hc1, Bool.false_eq_true, if_false, if_true, List.nil_append]
      rw [List.nodup_flatMap]
      constructor
      · intro c hcm
        rw [List.mem_reverse] at hcm
        exact ih c (hh c hcm) (children_present Mod N c hcm).1
      · apply List.Nodup.pairwise_of_forall_ne
          (List.nodup_reverse.2 (children_nodup Mod N hnd))
        intro c1 h1 c2 h2 hne
        rw [List.mem_reverse] at h1 h2
        simp only [Function.onFun]
        rw [List.disjoint_left]
        intro X hX1 hX2
        have b1 := ((mem_subtreeLocs_leaves Mod d c1 X (hh c1 h1)
          (children_present Mod N c1 h1).1).1 hX1).1
        have b2 := ((mem_subtreeLocs_leaves Mod d c2 X (hh c2 h2)
          (children_present Mod N c2 h2).1).1 hX2).1
        exact hne (below_siblings Mod N c1 c2 X h1 h2 b1 b2)

theorem mem_subtreeLocs_all (Mod : SILModule) (d : Nat) :
    ∀ N X : Location, heightLE Mod d N = true →
      (X ∈ subtreeLocs Mod false d N ↔
        (Below Mod N X ∧ X ≠ N) ∨ (X = N ∧ N.children Mod = [])) := by
  induction d with
  | zero => intro N X h; simp [heightLE] at h
  | succ d ih =>
    intro N X hh
    simp only [heightLE, List.all_eq_true] at hh
    by_cases hc : N.children Mod = []
    · simp only [subtreeLocs, hc, List.isEmpty_nil, if_true, List.mem_singleton]
      constructor
      · rintro rfl; exact Or.inr ⟨rfl, trivial⟩
      · rintro (⟨hb, hne⟩ | ⟨h, _⟩)
        · exact absurd (below_leaf Mod N X hc hb) hne
        · exact h
    · have hc1 : (N.children Mod).isEmpty = false := by
        cases h : N.children Mod with
        | nil => exact absurd h hc
        | cons _ _ => rfl
      simp only [subtreeLocs, hc1, Bool.false_eq_true, if_false, List.mem_append,
        List.mem_flatMap, List.mem_reverse]
      constructor
      · rintro (hX | ⟨c, hcm, hX⟩)
        · exact Or.inl ⟨Below.step hX (Below.self X), child_ne_parent Mod N X hX⟩
        · have hb : Below Mod c X := by
            rcases (ih c X (hh c hcm)).1 hX with h | h
            · exact h.1
            · rw [h.1]; exact Below.self c
          refine Or.inl ⟨Below.step hcm hb, ?_⟩
          rintro rfl
          exact not_below_of_child Mod X c X hcm hb (Below.self X)
      · rintro (⟨hb, hne⟩ | ⟨_, h⟩)
        · cases hb with
          | self => exact absurd rfl hne
          | @step _ c _ hcm hb1 =>
            by_cases hXc : X = c
            · left; rw [hXc]; exact hcm
            · right; exact ⟨c, hcm, (ih c X (hh c hcm)).2 (Or.inl ⟨hb1, hXc⟩)⟩
        · exact absurd h hc

theorem below_of_mem_subtreeLocs (Mod : SILModule) (d : Nat) (N X : Location)
    (hh : heightLE Mod d N = true) (h : X ∈ subtreeLocs Mod false d N) : Below Mod N X := by
  rcases (mem_subtreeLocs_all Mod d N X hh).1 h with h | h
  · exact h.1
  · rw [h.1]; exact Below.self N

/-- In the list of all emitted locations nothing that comes before a location with
first-level locations lies in the tree under that location. -/
theorem pairwise_subtreeLocs (Mod : SILModule)
    (hnd : ∀ T, (Mod.getFirstLevelProjections T).Nodup) (d : Nat) :
    ∀ N : Location, heightLE Mod d N = true →
      (N :: subtreeLocs Mod false d N).Pairwise
        (fun X Y => Y.children Mod ≠ [] → ¬ Below Mod Y X) := by
  induction d with
  | zero => intro N h; simp [heightLE] at h
  | succ d ih =>
    intro N hh
    have hroot : ∀ Y ∈ subtreeLocs Mod false (d + 1) N,
        Y.children Mod ≠ [] → ¬ Below Mod Y N := by
      intro Y hY hYc hb
      rcases (mem_subtreeLocs_all Mod (d + 1) N Y hh).1 hY with h | h
      · exact h.2 (below_antisymm Mod Y N hb h.1)
      · rw [h.1] at hYc; exact hYc h.2
    rw [List.pairwise_cons]
    refine ⟨hroot, ?_⟩
    simp only [heightLE, List.all_eq_true] at hh
    by_cases hc : N.children Mod = []
    · simp [subtreeLocs, hc]
    · have hc1 : (N.children Mod).isEmpty = false := by
        cases h : N.children Mod with
        | nil => exact absurd h hc
        | cons _ _ => rfl
      simp only [subtreeLocs, hc1, Bool.false_eq_true, if_false]
      rw [List.pairwise_append]
      refine ⟨?_, ?_, ?_⟩
      · apply List.Nodup.pairwise_of_forall_ne (children_nodup Mod N hnd)
        intro c1 h1 c2 h2 hne _ hb
        exact hne (below_siblings Mod N c1 c2 c1 h1 h2 (Below.self c1) hb)
      · rw [List.pairwise_flatMap]
        constructor
        · intro c hcm
          rw [List.mem_reverse] at hcm
          exact (List.pairwise_cons.1 (ih c (hh c hcm))).2
        · apply List.Nodup.pairwise_of_forall_ne
            (List.nodup_reverse.2 (children_nodup Mod N hnd))
          intro c1 h1 c2 h2 hne X hX Y hY _ hb
          rw [List.mem_reverse] at h1 h2
          have b1 := below_of_mem_subtreeLocs Mod d c1 X (hh c1 h1) hX
          have b2 := below_of_mem_subtreeLocs Mod d c2 Y (hh c2 h2) hY
          exact hne (below_siblings Mod N c1 c2 X h1 h2 b1 (below_trans Mod c2 Y X b2 hb))
      · intro X hX Y hY hYc hb
        obtain ⟨c, hcm, hYs⟩ := List.mem_flatMap.1 hY
        rw [List.mem_reverse] at hcm
        have b2 := below_of_mem_subtreeLocs Mod d c Y (hh c hcm) hYs
        have hXc : X = c :=
          below_siblings Mod N X c X hX hcm (Below.self X) (below_trans Mod c Y X b2 hb)
        subst hXc
        have hYX : Y = X := below_antisymm Mod Y X hb b2
        subst hYX
        rcases (mem_subtreeLocs_all Mod d Y Y (hh Y hcm)).1 hYs with h | h
        · exact h.2 rfl
        · exact hYc h.2

/-! ## Location sets -/

theorem contains_iff (S : LocationSet) (X : Location) (hX : X.Path.isSome = true) :
    S.contains X = true ↔ X ∈ S := by
  unfold LocationSet.contains
  rw [List.any_eq_true]
  constructor
  · rintro ⟨Y, hY, h⟩
    rw [← ((isEqual_iff Y X).1 h).1]; exact hY
  · intro h
    exact ⟨X, h, (isEqual_iff X X).2 ⟨rfl, hX⟩⟩

theorem mem_erase (S : LocationSet) (X Y : Location) (hX : X.Path.isSome = true) :
    Y ∈ S.erase X ↔ Y ∈ S ∧ Y ≠ X := by
  unfold LocationSet.erase
  rw [List.mem_filter]
  have : (!Y.isEqual X) = true ↔ Y ≠ X := by
    rw [Bool.not_eq_true', ← Bool.not_eq_true, isEqual_iff]
    constructor
    · intro h e; exact h ⟨e, hX⟩
    · intro h e; exact h e.1
  rw [this]

theorem mem_foldl_erase (Xs : List Location) (hXs : ∀ X ∈ Xs, X.Path.isSome = true) :
    ∀ (S : LocationSet) (Y : Location),
      Y ∈ Xs.foldl LocationSet.erase S ↔ Y ∈ S ∧ Y ∉ Xs := by
  induction Xs with
  | nil => intro S Y; simp
  | cons X Xs ih =>
    intro S Y
    rw [List.foldl_cons, ih (fun Z hZ => hXs Z (List.mem_cons_of_mem _ hZ)),
      mem_erase S X Y (hXs X (List.mem_cons_self _ _))]
    simp only [List.mem_cons, not_or]
    tauto

theorem mem_insert (S : LocationSet) (X Y : Location) (hX : X.Path.isSome = true) :
    Y ∈ S.insert X ↔ Y ∈ S ∨ Y = X := by
  unfold LocationSet.insert
  by_cases h : S.contains X = true
  · rw [if_pos h]
    have := (contains_iff S X hX).1 h
    constructor
    · exact Or.inl
    · rintro (h1 | rfl)
      · exact h1
      · exact this
  · rw [if_neg h]
    simp

theorem nodup_erase (S : LocationSet) (X : Location) (h : S.Nodup) : (S.erase X).Nodup :=
  List.Nodup.filter _ h

theorem nodup_foldl_erase (Xs : List Location) :
    ∀ S : LocationSet, S.Nodup → (Xs.foldl LocationSet.erase S).Nodup := by
  induction Xs with
  | nil => intro S h; exact h
  | cons X Xs ih => intro S h; exact ih _ (nodup_erase S X h)

theorem nodup_insert (S : LocationSet) (X : Location) (hX : X.Path.isSome = true)
    (h : S.Nodup) : (S.insert X).Nodup := by
  unfold LocationSet.insert
  by_cases hc : S.contains X = true
  · rw [if_pos hc]; exact h
  · rw [if_neg hc]
    have hn : X ∉ S := fun hm => hc ((contains_iff S X hX).2 hm)
    exact List.Nodup.append h (List.nodup_singleton _) (by simpa using hn)

theorem mem_ofList (Xs : List Location) (hXs : ∀ X ∈ Xs, X.Path.isSome = true) (Y : Location) :
    Y ∈ LocationSet.ofList Xs ↔ Y ∈ Xs := by
  have key : ∀ (Zs : List Location) (S : LocationSet), (∀ X ∈ Zs, X.Path.isSome = true) →
      (Y ∈ Zs.foldl LocationSet.insert S ↔ Y ∈ S ∨ Y ∈ Zs) := by
    intro Zs
    induction Zs with
    | nil => intro S _; simp
    | cons Z Zs ih =>
      intro S hZs
      rw [List.foldl_cons, ih _ (fun X hX => hZs X (List.mem_cons_of_mem _ hX)),
        mem_insert S Z Y (hZs Z (List.mem_cons_self _ _))]
      simp only [List.mem_cons]
      tauto
  unfold LocationSet.ofList
  rw [key Xs [] hXs]
  simp

theorem nodup_ofList (Xs : List Location) (hXs : ∀ X ∈ Xs, X.Path.isSome = true) :
    (LocationSet.ofList Xs).Nodup := by
  have key : ∀ (Zs : List Location) (S : LocationSet), (∀ X ∈ Zs, X.Path.isSome = true) →
      S.Nodup → (Zs.foldl LocationSet.insert S).Nodup := by
    intro Zs
    induction Zs with
    | nil => intro S _ h; exact h
    | cons Z Zs ih =>
      intro S hZs h
      exact ih _ (fun X hX => hZs X (List.mem_cons_of_mem _ hX))
        (nodup_insert S Z (hZs Z (List.mem_cons_self _ _)) h)
  exact key Xs [] hXs List.nodup_nil

/-! ## One candidate of the merge loop -/

theorem getFirstLevelLocations_eq (Mod : SILModule) (N : Location)
    (hN : N.Path.isSome = true) :
    N.getFirstLevelLocations [] Mod = some (N.children Mod) := by
  obtain ⟨path, hp⟩ := Option.isSome_iff_exists.1 hN
  unfold Location.getFirstLevelLocations
  simp only
  by_cases h : Mod.getFirstLevelProjections (Mod.getType N) = []
  · rw [(children_eq_nil_iff Mod N hN).2 h]
    simp [h]
  · rw [children_eq_map Mod N path hp]
    simp [h, hp]

theorem mergeStep_eq (Mod : SILModule) (S : LocationSet) (I : Location)
    (hI : I.Path.isSome = true) :
    ∃ S1, mergeStep Mod S I = some S1 ∧ (S.Nodup → S1.Nodup) ∧
      ∀ Y, Y ∈ S1 ↔
        if I.children Mod ≠ [] ∧ ∀ c ∈ I.children Mod, c ∈ S
        then (Y ∈ S ∧ Y ∉ I.children Mod) ∨ Y = I
        else Y ∈ S := by
  have hcp : ∀ c ∈ I.children Mod, c.Path.isSome = true := fun c hc =>
    (children_present Mod I c hc).1
  unfold mergeStep
  rw [getFirstLevelLocations_eq Mod I hI]
  simp only
  by_cases hc : I.children Mod = []
  · refine ⟨S, by simp [hc], fun h => h, ?_⟩
    intro Y
    simp [hc]
  · have hc1 : (I.children Mod).isEmpty = false := by
      cases h : I.children Mod with
      | nil => exact absurd h hc
      | cons _ _ => rfl
    have hall : (I.children Mod).all (fun X => S.contains X) = true ↔
        ∀ c ∈ I.children Mod, c ∈ S := by
      rw [List.all_eq_true]
      constructor
      · intro h c hcm; exact (contains_iff S c (hcp c hcm)).1 (h c hcm)
      · intro h c hcm; exact (contains_iff S c (hcp c hcm)).2 (h c hcm)
    by_cases ha : ∀ c ∈ I.children Mod, c ∈ S
    · refine ⟨((I.children Mod).foldl LocationSet.erase S).insert I, ?_, ?_, ?_⟩
      · simp [hc1, hall.2 ha]
      · intro h
        exact nodup_insert _ I hI (nodup_foldl_erase _ S h)
      · intro Y
        rw [if_pos ⟨hc, ha⟩, mem_insert _ I Y hI, mem_foldl_erase _ hcp]
    · have hall1 : (I.children Mod).all (fun X => S.contains X) = false := by
        cases h : (I.children Mod).all (fun X => S.contains X) with
        | false => rfl
        | true => exact absurd (hall.1 h) ha
      refine ⟨S, ?_, fun h => h, ?_⟩
      · simp [hc1, hall1]
      · intro Y
        rw [if_neg (fun h => ha h.2)]

theorem mergeLoop_append (Mod : SILModule) (Is Js : List Location) :
    ∀ S : LocationSet, mergeLoop Mod (Is ++ Js) S
      = (mergeLoop Mod Is S).bind (mergeLoop Mod Js) := by
  induction Is with
  | nil => intro S; simp [mergeLoop]
  | cons I Is ih =>
    intro S
    simp only [List.cons_append, mergeLoop]
    cases mergeStep Mod S I with
    | none => simp
    | some S1 => simp [ih]

/-! ## The merge loop over all candidates -/

theorem merged_snoc (Mod : SILModule) (S0 : LocationSet) (done : List Location)
    (I X : Location) :
    Merged Mod S0 (done ++ [I]) X ↔
      Merged Mod S0 done X ∨
        (X = I ∧ I.children Mod ≠ [] ∧ ∀ c ∈ I.children Mod, Covered Mod S0 c) := by
  unfold Merged
  simp only [List.mem_append, List.mem_singleton]
  constructor
  · rintro ⟨h | h, h2, h3⟩
    · exact Or.inl ⟨h, h2, h3⟩
    · subst h; exact Or.inr ⟨rfl, h2, h3⟩
  · rintro (⟨h, h2, h3⟩ | ⟨h, h2, h3⟩)
    · exact ⟨Or.inl h, h2, h3⟩
    · subst h; exact ⟨Or.inr rfl, h2, h3⟩

theorem mergeLoop_inv (Mod : SILModule) (M : Location) (S0 : LocationSet)
    (order : List Location) (hM : M.Path.isSome = true)
    (hO : ∀ X, X ∈ order ↔ Below Mod M X)
    (hPW : order.Pairwise (fun X Y => X.children Mod ≠ [] → ¬ Below Mod X Y)) :
    ∀ (todo done : List Location) (S : LocationSet), done ++ todo = order →
      MergeInv Mod S0 done S →
      ∃ S1, mergeLoop Mod todo S = some S1 ∧ MergeInv Mod S0 order S1 ∧
        (S.Nodup → S1.Nodup) := by
  intro todo
  induction todo with
  | nil =>
    intro done S hord hInv
    rw [List.append_nil] at hord
    subst hord
    exact ⟨S, rfl, hInv, fun h => h⟩
  | cons I todo ih =>
    intro done S hord hInv
    have hIb : Below Mod M I := (hO I).1 (by rw [← hord]; simp)
    have hIp : I.Path.isSome = true := (below_present Mod M I hM hIb).1
    obtain ⟨S1, hstep, hnd1, hmem⟩ := mergeStep_eq Mod S I hIp
    rw [← hord, List.pairwise_append] at hPW
    obtain ⟨_, pIt, cross⟩ := hPW
    have f1 : ∀ P ∈ done, P.children Mod ≠ [] → ¬ Below Mod P I := fun P hP =>
      cross P hP I (List.mem_cons_self _ _)
    have f2 : ∀ Y ∈ todo, I.children Mod ≠ [] → ¬ Below Mod I Y :=
      (List.pairwise_cons.1 pIt).1
    have hnotI : ¬ Merged Mod S0 done I := fun h => f1 I h.1 h.2.1 (Below.self I)
    have hchild : ∀ c ∈ I.children Mod, (c ∈ S ↔ Covered Mod S0 c) := by
      intro c hc
      have hIne : I.children Mod ≠ [] := fun h => by rw [h] at hc; cases hc
      rw [hInv c]
      constructor
      · rintro ⟨h | h, _⟩
        · exact Covered.mem h
        · exact Covered.merge h.2.1 h.2.2
      · intro hcov
        constructor
        · cases hcov with
          | mem h => exact Or.inl h
          | merge hne hall =>
            right
            refine ⟨?_, hne, hall⟩
            have hco : c ∈ order := (hO c).2 (below_child Mod M I c hIb hc)
            rw [← hord] at hco
            rcases List.mem_append.1 hco with h | h
            · exact h
            · rcases List.mem_cons.1 h with h | h
              · exact absurd h (child_ne_parent Mod I c hc)
              · exact absurd (Below.step hc (Below.self c)) (f2 c h hIne)
        · rintro ⟨P, hcP, hP⟩
          have : P = I := parent_unique Mod P I c hcP hc
          subst this
          exact hnotI hP
    have hcond : (I.children Mod ≠ [] ∧ ∀ c ∈ I.children Mod, c ∈ S) ↔
        (I.children Mod ≠ [] ∧ ∀ c ∈ I.children Mod, Covered Mod S0 c) := by
      constructor
      · rintro ⟨h1, h2⟩; exact ⟨h1, fun c hc => (hchild c hc).1 (h2 c hc)⟩
      · rintro ⟨h1, h2⟩; exact ⟨h1, fun c hc => (hchild c hc).2 (h2 c hc)⟩
    have hInv1 : MergeInv Mod S0 (done ++ [I]) S1 := by
      intro Y
      rw [hmem Y]
      by_cases hB : I.children Mod ≠ [] ∧ ∀ c ∈ I.children Mod, Covered Mod S0 c
      · rw [if_pos (hcond.2 hB)]
        have hIM : Merged Mod S0 (done ++ [I]) I := (merged_snoc Mod S0 done I I).2
          (Or.inr ⟨rfl, hB⟩)
        by_cases hYI : Y = I
        · subst hYI
          constructor
          · intro _
            refine ⟨Or.inr hIM, ?_⟩
            rintro ⟨P, hYP, hP⟩
            rcases (merged_snoc Mod S0 done Y P).1 hP with h | h
            · exact f1 P h.1 h.2.1 (Below.step hYP (Below.self Y))
            · rw [h.1] at hYP
              exact child_ne_parent Mod Y Y hYP rfl
          · intro _; exact Or.inr rfl
        · by_cases hYc : Y ∈ I.children Mod
          · constructor
            · rintro (⟨_, h⟩ | h)
              · exact absurd hYc h
              · exact absurd h hYI
            · rintro ⟨_, h⟩
              exact absurd ⟨I, hYc, hIM⟩ h
          · constructor
            · rintro (⟨h, _⟩ | h)
              · obtain ⟨h1, h2⟩ := (hInv Y).1 h
                refine ⟨?_, ?_⟩
                · rcases h1 with h1 | h1
                  · exact Or.inl h1
                  · exact Or.inr ((merged_snoc Mod S0 done I Y).2 (Or.inl h1))
                · rintro ⟨P, hYP, hP⟩
                  rcases (merged_snoc Mod S0 done I P).1 hP with h3 | h3
                  · exact h2 ⟨P, hYP, h3⟩
                  · rw [h3.1] at hYP; exact hYc hYP
              · exact absurd h hYI
            · rintro ⟨h1, h2⟩
              left
              refine ⟨(hInv Y).2 ⟨?_, ?_⟩, hYc⟩
              · rcases h1 with h1 | h1
                · exact Or.inl h1
                · rcases (merged_snoc Mod S0 done I Y).1 h1 with h3 | h3
                  · exact Or.inr h3
                  · exact absurd h3.1 hYI
              · rintro ⟨P, hYP, hP⟩
                exact h2 ⟨P, hYP, (merged_snoc Mod S0 done I P).2 (Or.inl hP)⟩
      · rw [if_neg (fun h => hB (hcond.1 h))]
        have hsame : ∀ X, Merged Mod S0 (done ++ [I]) X ↔ Merged Mod S0 done X := by
          intro X
          rw [merged_snoc]
          constructor
          · rintro (h | h)
            · exact h
            · exact absurd h.2 hB
          · exact Or.inl
        rw [hInv Y, hsame Y]
        constructor
        · rintro ⟨h1, h2⟩
          exact ⟨h1, fun ⟨P, hYP, hP⟩ => h2 ⟨P, hYP, (hsame P).1 hP⟩⟩
        · rintro ⟨h1, h2⟩
          exact ⟨h1, fun ⟨P, hYP, hP⟩ => h2 ⟨P, hYP, (hsame P).2 hP⟩⟩
    obtain ⟨S2, h2, hInv2, hnd2⟩ := ih (done ++ [I]) S1 (by rw [← hord]; simp) hInv1
    refine ⟨S2, ?_, hInv2, fun h => hnd2 (hnd1 h)⟩
    simp only [mergeLoop, hstep]
    exact h2

/-! ## The result of `mergeLocations` -/

theorem not_covered_nil (Mod : SILModule) (X : Location) : ¬ Covered Mod [] X := by
  intro h
  induction h with
  | mem h => cases h
  | @merge N hne _ ih =>
    cases hc : N.children Mod with
    | nil => exact hne hc
    | cons c cs => exact ih c (by rw [hc]; exact List.mem_cons_self _ _)

theorem heightLE_below (Mod : SILModule) (N X : Location) (h : Below Mod N X) :
    ∀ d, heightLE Mod d N = true → heightLE Mod d X = true := by
  induction h with
  | self N => intro d h; exact h
  | @step N c X hc _ ih =>
    intro d h
    cases d with
    | zero => simp [heightLE] at h
    | succ d =>
      simp only [heightLE, List.all_eq_true] at h
      exact ih (d + 1) (heightLE_mono Mod d (d + 1) c (Nat.le_succ d) (h c hc))

/-- The set after `mergeLocations(S, M)`, for every set `S`: with enough fuel the call
returns, and a location is a member of the result exactly when it was a member of `S` or
is a node of the tree under `M` whose first-level locations are all covered by `S`, and it
is not a first-level location of a node of the tree whose first-level locations are all
covered by `S`. -/
theorem mergeLocations_char (Mod : SILModule) (M : Location) (S : LocationSet)
    (hM : M.Path.isSome = true) (hfin : FiniteTree Mod M)
    (hnd : ∀ T, (Mod.getFirstLevelProjections T).Nodup) :
    ∃ n S1, (∀ fuel, n ≤ fuel → Location.mergeLocations Mod fuel S M = some S1) ∧
      (S.Nodup → S1.Nodup) ∧
      ∀ X, X ∈ S1 ↔
        (X ∈ S ∨ (Below Mod M X ∧ X.children Mod ≠ [] ∧
          ∀ c ∈ X.children Mod, Covered Mod S c)) ∧
        ¬ ∃ P, Below Mod M P ∧ X ∈ P.children Mod ∧
          ∀ c ∈ P.children Mod, Covered Mod S c := by
  obtain ⟨d, hd⟩ := heightLE_of_finiteTree Mod M hfin
  obtain ⟨n, hn⟩ := expand_eq Mod false d M hd hM
  by_cases hS : S = []
  · subst hS
    refine ⟨0, [], ?_, fun h => h, ?_⟩
    · intro fuel _
      simp [Location.mergeLocations]
    · intro X
      constructor
      · intro h; cases h
      · rintro ⟨h | ⟨_, hne, hall⟩, _⟩
        · cases h
        · cases hc : X.children Mod with
          | nil => exact absurd hc hne
          | cons c cs =>
            exact absurd (hall c (by rw [hc]; exact List.mem_cons_self _ _))
              (not_covered_nil Mod c)
  · have hO : ∀ X, X ∈ (M :: subtreeLocs Mod false d M).reverse ↔ Below Mod M X := by
      intro X
      rw [List.mem_reverse, List.mem_cons, mem_subtreeLocs_all Mod d M X hd]
      constructor
      · rintro (h | h | h)
        · rw [h]; exact Below.self M
        · exact h.1
        · rw [h.1]; exact Below.self M
      · intro h
        by_cases hX : X = M
        · exact Or.inl hX
        · exact Or.inr (Or.inl ⟨h, hX⟩)
    have hPW : (M :: subtreeLocs Mod false d M).reverse.Pairwise
        (fun X Y => X.children Mod ≠ [] → ¬ Below Mod X Y) := by
      rw [List.pairwise_reverse]
      exact pairwise_subtreeLocs Mod hnd d M hd
    have hInv0 : MergeInv Mod S [] S := by
      intro X
      constructor
      · intro h
        exact ⟨Or.inl h, fun ⟨P, _, hP⟩ => by cases hP.1⟩
      · rintro ⟨h | h, _⟩
        · exact h
        · cases h.1
    obtain ⟨S1, h1, hInv, hnd1⟩ := mergeLoop_inv Mod M S _ hM hO hPW
      (M :: subtreeLocs Mod false d M).reverse [] S rfl hInv0
    refine ⟨n, S1, ?_, hnd1, ?_⟩
    · intro fuel hle
      have hSe : S.isEmpty = false := by
        cases S with
        | nil => exact absurd rfl hS
        | cons _ _ => rfl
      unfold Location.mergeLocations
      rw [hn fuel hle []]
      simp only [hSe, Bool.false_eq_true, if_false, List.nil_append, List.singleton_append]
      exact h1
    · intro X
      rw [hInv X]
      unfold Merged
      constructor
      · rintro ⟨h1, h2⟩
        refine ⟨?_, ?_⟩
        · rcases h1 with h1 | h1
          · exact Or.inl h1
          · exact Or.inr ⟨(hO X).1 h1.1, h1.2⟩
        · rintro ⟨P, hP, hXP, hall⟩
          refine h2 ⟨P, hXP, (hO P).2 hP, ?_, hall⟩
          intro h; rw [h] at hXP; cases hXP
      · rintro ⟨h1, h2⟩
        refine ⟨?_, ?_⟩
        · rcases h1 with h1 | h1
          · exact Or.inl h1
          · exact Or.inr ⟨(hO X).2 h1.1, h1.2⟩
        · rintro ⟨P, hXP, hP, _, hall⟩
          exact h2 ⟨P, (hO P).1 hP, hXP, hall⟩

theorem covered_of_leaves (Mod : SILModule) (S : LocationSet) (d : Nat) :
    ∀ X : Location, heightLE Mod d X = true → X.Path.isSome = true →
      (∀ Y, IsLeafOf Mod X Y → Y ∈ S) → Covered Mod S X := by
  induction d with
  | zero => intro X h; simp [heightLE] at h
  | succ d ih =>
    intro X hh hX hS
    simp only [heightLE, List.all_eq_true] at hh
    by_cases hc : X.children Mod = []
    · exact Covered.mem (hS X ⟨Below.self X, (children_eq_nil_iff Mod X hX).1 hc⟩)
    · refine Covered.merge hc (fun c hcm => ?_)
      refine ih c (hh c hcm) (children_present Mod X c hcm).1 ?_
      intro Y hY
      exact hS Y ⟨Below.step hcm hY.1, hY.2⟩

theorem covered_without_leaf (Mod : SILModule) (M l : Location) (S : LocationSet)
    (hM : M.Path.isSome = true) (hfin : FiniteTree Mod M) (hl : IsLeafOf Mod M l)
    (hS : ∀ Y, Y ∈ S ↔ IsLeafOf Mod M Y ∧ Y ≠ l) (X : Location) (hX : Below Mod M X) :
    Covered Mod S X ↔ ¬ Below Mod X l := by
  have hlc : l.children Mod = [] :=
    (children_eq_nil_iff Mod l (below_present Mod M l hM hl.1).1).2 hl.2
  constructor
  · intro h
    induction h with
    | @mem N h =>
      intro hb
      obtain ⟨hN, hne⟩ := (hS N).1 h
      have hNc : N.children Mod = [] :=
        (children_eq_nil_iff Mod N (below_present Mod M N hM hN.1).1).2 hN.2
      exact hne (below_leaf Mod N l hNc hb).symm
    | @merge N hne _ ih =>
      intro hb
      cases hb with
      | self => exact hne hlc
      | @step _ c _ hc hb1 => exact ih c hc (below_child Mod M N c hX hc) hb1
  · obtain ⟨d, hd⟩ := heightLE_of_finiteTree Mod M hfin
    have key : ∀ e (Y : Location), heightLE Mod e Y = true → Below Mod M Y →
        ¬ Below Mod Y l → Covered Mod S Y := by
      intro e
      induction e with
      | zero => intro Y h; simp [heightLE] at h
      | succ e ih =>
        intro Y hh hY hnb
        simp only [heightLE, List.all_eq_true] at hh
        by_cases hc : Y.children Mod = []
        · refine Covered.mem ((hS Y).2 ⟨⟨hY, ?_⟩, ?_⟩)
          · exact (children_eq_nil_iff Mod Y (below_present Mod M Y hM hY).1).1 hc
          · rintro rfl; exact hnb (Below.self Y)
        · exact Covered.merge hc (fun c hcm =>
            ih c (hh c hcm) (below_child Mod M Y c hY hcm)
              (fun hb => hnb (Below.step hcm hb)))
    exact key d X (heightLE_below Mod M X hX d hd) hX

/-! ## Expansion and merge -/

theorem eq_singleton_of_nodup (l : List Location) (a : Location) (hnd : l.Nodup)
    (h : ∀ X, X ∈ l ↔ X = a) : l = [a] := by
  have hp : l.Perm [a] :=
    (List.perm_ext_iff_of_nodup hnd (List.nodup_singleton a)).2
      (fun X => by rw [h X, List.mem_singleton])
  exact List.perm_singleton.1 hp

theorem leaves_present (Mod : SILModule) (d : Nat) (M : Location)
    (hd : heightLE Mod d M = true) (hM : M.Path.isSome = true) :
    ∀ X ∈ subtreeLocs Mod true d M, X.Path.isSome = true := fun X hX =>
  (below_present Mod M X hM ((mem_subtreeLocs_leaves Mod d M X hd hM).1 hX).1).1

/-- C2: with enough fuel `expand(onlyLeaf=true)` on a location with a present path, a
finite decomposition tree and duplicate-free first-level projections appends a list `out`
whose members are exactly the leaf fields of the location, each once: the paths are
pairwise distinct, each is a sequence of projections followed by the path of the
location, and `out` is as long as any duplicate-free list of the leaf fields. -/
theorem expand_leaves_complete (Mod : SILModule) (L : Location)
    (hL : L.Path.isSome = true) (hfin : FiniteTree Mod L)
    (hnd : ∀ T, (Mod.getFirstLevelProjections T).Nodup) :
    ∃ n out, (∀ fuel, n ≤ fuel → ∀ Locs : LocationList,
        L.expand Mod fuel Locs true = some (Locs ++ out)) ∧
      (out.map Location.Path).Nodup ∧
      (∀ X, X ∈ out ↔ IsLeafOf Mod L X) ∧
      (∀ X ∈ out, ∃ q path, L.Path = some path ∧
        X = { Base := L.Base, Path := some (q ++ path) }) ∧
      (∀ leaves : List Location, leaves.Nodup → (∀ X, X ∈ leaves ↔ IsLeafOf Mod L X) →
        out.length = leaves.length) := by
  obtain ⟨d, hd⟩ := heightLE_of_finiteTree Mod L hfin
  obtain ⟨n, hn⟩ := expand_eq Mod true d L hd hL
  have hmem := fun X => mem_subtreeLocs_leaves Mod d L X hd hL
  have hnodup := nodup_subtreeLocs_leaves Mod hnd d L hd hL
  refine ⟨n, subtreeLocs Mod true d L, ?_, ?_, hmem, ?_, ?_⟩
  · intro fuel hle Locs
    rw [hn fuel hle Locs]
    simp
  · apply List.Nodup.map_on _ hnodup
    intro X hX Y hY hXY
    have bX := (below_present Mod L X hL ((hmem X).1 hX).1).2
    have bY := (below_present Mod L Y hL ((hmem Y).1 hY).1).2
    obtain ⟨b1, p1⟩ := X
    obtain ⟨b2, p2⟩ := Y
    simp only at hXY bX bY
    rw [hXY, bX, bY]
  · intro X hX
    obtain ⟨path, hp⟩ := Option.isSome_iff_exists.1 hL
    rcases below_path Mod L X ((hmem X).1 hX).1 with rfl | ⟨path1, q, h1, _, rfl⟩
    · exact ⟨[], path, hp, by simp [← hp]⟩
    · exact ⟨q, path1, h1, rfl⟩
  · intro leaves hlnd hl
    exact ((List.perm_ext_iff_of_nodup hnodup hlnd).2
      (fun X => by rw [hmem X, hl X])).length_eq

theorem expand_leaves_complete_witness :
    ∃ n out, (∀ fuel, n ≤ fuel → ∀ Locs : LocationList,
        wholeObject.expand nestedModule fuel Locs true = some (Locs ++ out)) ∧
      (out.map Location.Path).Nodup ∧
      (∀ X, X ∈ out ↔ IsLeafOf nestedModule wholeObject X) ∧
      (∀ X ∈ out, ∃ q path, wholeObject.Path = some path ∧
        X = { Base := wholeObject.Base, Path := some (q ++ path) }) ∧
      (∀ leaves : List Location, leaves.Nodup →
        (∀ X, X ∈ leaves ↔ IsLeafOf nestedModule wholeObject X) →
        out.length = leaves.length) :=
  expand_leaves_complete nestedModule wholeObject rfl
    (finiteTree_of_heightLE nestedModule 3 wholeObject (by decide))
    (fun T => by unfold nestedModule; simp only; split_ifs <;> decide)

/-- C1: for a location `M` with a present path, a finite decomposition tree and
duplicate-free first-level projections, with enough fuel `expand(onlyLeaf=true)` returns
the leaves `out`, and `mergeLocations` on the set of these leaves returns the set that
holds `M` alone. -/
theorem merge_expand_inverse (Mod : SILModule) (M : Location)
    (hM : M.Path.isSome = true) (hfin : FiniteTree Mod M)
    (hnd : ∀ T, (Mod.getFirstLevelProjections T).Nodup) :
    ∃ n out, ∀ fuel, n ≤ fuel →
      M.expand Mod fuel [] true = some out ∧
      Location.mergeLocations Mod fuel (LocationSet.ofList out) M = some [M] := by
  obtain ⟨d, hd⟩ := heightLE_of_finiteTree Mod M hfin
  obtain ⟨n1, hn1⟩ := expand_eq Mod true d M hd hM
  have hpres := leaves_present Mod d M hd hM
  have hS : ∀ Y, Y ∈ LocationSet.ofList (subtreeLocs Mod true d M) ↔ IsLeafOf Mod M Y :=
    fun Y => by rw [mem_ofList _ hpres, mem_subtreeLocs_leaves Mod d M Y hd hM]
  obtain ⟨n2, S1, hrun, hnd1, hchar⟩ := mergeLocations_char Mod M
    (LocationSet.ofList (subtreeLocs Mod true d M)) hM hfin hnd
  have hcov : ∀ Y, Below Mod M Y →
      Covered Mod (LocationSet.ofList (subtreeLocs Mod true d M)) Y := by
    intro Y hY
    refine covered_of_leaves Mod _ d Y (heightLE_below Mod M Y hY d hd)
      (below_present Mod M Y hM hY).1 ?_
    intro Z hZ
    exact (hS Z).2 ⟨below_trans Mod M Y Z hY hZ.1, hZ.2⟩
  have hS1 : S1 = [M] := by
    apply eq_singleton_of_nodup S1 M (hnd1 (nodup_ofList _ hpres))
    intro X
    rw [hchar X]
    constructor
    · rintro ⟨h1, h2⟩
      have hX : Below Mod M X := by
        rcases h1 with h1 | h1
        · exact ((hS X).1 h1).1
        · exact h1.1
      rcases below_cases Mod M X hX with h | ⟨P, hP, hXP⟩
      · exact h
      · exact absurd ⟨P, hP, hXP, fun c hc => hcov c (below_child Mod M P c hP hc)⟩ h2
    · rintro rfl
      refine ⟨?_, ?_⟩
      · by_cases hc : X.children Mod = []
        · exact Or.inl ((hS X).2 ⟨Below.self X, (children_eq_nil_iff Mod X hM).1 hc⟩)
        · exact Or.inr ⟨Below.self X, hc, fun c hcm =>
            hcov c (Below.step hcm (Below.self c))⟩
      · rintro ⟨P, hP, hXP, _⟩
        exact not_below_of_child Mod P X X hXP (Below.self X) hP
  refine ⟨max n1 n2, subtreeLocs Mod true d M, ?_⟩
  intro fuel hle
  refine ⟨?_, ?_⟩
  · rw [hn1 fuel (le_trans (le_max_left _ _) hle) []]
    simp
  · rw [hrun fuel (le_trans (le_max_right _ _) hle), hS1]

theorem merge_expand_inverse_witness :
    ∃ n out, ∀ fuel, n ≤ fuel →
      wholeObject.expand nestedModule fuel [] true = some out ∧
      Location.mergeLocations nestedModule fuel (LocationSet.ofList out) wholeObject
        = some [wholeObject] :=
  merge_expand_inverse nestedModule wholeObject rfl
    (finiteTree_of_heightLE nestedModule 3 wholeObject (by decide))
    (fun T => by unfold nestedModule; simp only; split_ifs <;> decide)

/-- C3: for a location `M` with a present path, a finite decomposition tree and
duplicate-free first-level projections, and a leaf `l` of `M`: with enough fuel
`mergeLocations` on the set of all leaves except `l` returns a set whose members are
exactly the nodes `X` of the tree such that `l` is neither `X` nor below `X` but `l` is
below a node that `X` is a first-level location of; this set does not contain `M`. -/
theorem merge_partial (Mod : SILModule) (M l : Location)
    (hM : M.Path.isSome = true) (hfin : FiniteTree Mod M)
    (hnd : ∀ T, (Mod.getFirstLevelProjections T).Nodup) (hl : IsLeafOf Mod M l) :
    ∃ n out S1, l ∈ out ∧
      (∀ fuel, n ≤ fuel →
        M.expand Mod fuel [] true = some out ∧
        Location.mergeLocations Mod fuel ((LocationSet.ofList out).erase l) M = some S1) ∧
      (∀ X, X ∈ S1 ↔ Below Mod M X ∧ ¬ Below Mod X l ∧
        ∃ P, Below Mod M P ∧ X ∈ P.children Mod ∧ Below Mod P l) ∧
      M ∉ S1 := by
  obtain ⟨d, hd⟩ := heightLE_of_finiteTree Mod M hfin
  obtain ⟨n1, hn1⟩ := expand_eq Mod true d M hd hM
  have hpres := leaves_present Mod d M hd hM
  have hlp : l.Path.isSome = true := (below_present Mod M l hM hl.1).1
  have hlc : l.children Mod = [] := (children_eq_nil_iff Mod l hlp).2 hl.2
  have hS : ∀ Y, Y ∈ (LocationSet.ofList (subtreeLocs Mod true d M)).erase l ↔
      IsLeafOf Mod M Y ∧ Y ≠ l := fun Y => by
    rw [mem_erase _ l Y hlp, mem_ofList _ hpres, mem_subtreeLocs_leaves Mod d M Y hd hM]
  obtain ⟨n2, S1, hrun, _, hchar⟩ := mergeLocations_char Mod M
    ((LocationSet.ofList (subtreeLocs Mod true d M)).erase l) hM hfin hnd
  have hcov := covered_without_leaf Mod M l _ hM hfin hl hS
  have hmain : ∀ X, X ∈ S1 ↔ Below Mod M X ∧ ¬ Below Mod X l ∧
      ∃ P, Below Mod M P ∧ X ∈ P.children Mod ∧ Below Mod P l := by
    intro X
    rw [hchar X]
    constructor
    · rintro ⟨h1, h2⟩
      have hX : Below Mod M X := by
        rcases h1 with h1 | h1
        · exact ((hS X).1 h1).1.1
        · exact h1.1
      have hXc : Covered Mod ((LocationSet.ofList (subtreeLocs Mod true d M)).erase l) X := by
        rcases h1 with h1 | h1
        · exact Covered.mem h1
        · exact Covered.merge h1.2.1 h1.2.2
      have hnb : ¬ Below Mod X l := (hcov X hX).1 hXc
      refine ⟨hX, hnb, ?_⟩
      rcases below_cases Mod M X hX with h | ⟨P, hP, hXP⟩
      · rw [h] at hnb; exact absurd hl.1 hnb
      · refine ⟨P, hP, hXP, ?_⟩
        by_contra hPl
        apply h2
        refine ⟨P, hP, hXP, fun c hc => ?_⟩
        exact (hcov c (below_child Mod M P c hP hc)).2 (fun hb => hPl (Below.step hc hb))
    · rintro ⟨hX, hnb, P, hP, hXP, hPl⟩
      refine ⟨?_, ?_⟩
      · cases (hcov X hX).2 hnb with
        | mem h => exact Or.inl h
        | merge hne hall => exact Or.inr ⟨hX, hne, hall⟩
      · rintro ⟨P1, hP1, hXP1, hall⟩
        have : P1 = P := parent_unique Mod P1 P X hXP1 hXP
        subst this
        cases hPl with
        | self => rw [hlc] at hXP; cases hXP
        | @step _ c _ hc hb =>
          exact (hcov c (below_child Mod M P1 c hP hc)).1 (hall c hc) hb
  refine ⟨max n1 n2, subtreeLocs Mod true d M, S1,
    (mem_subtreeLocs_leaves Mod d M l hd hM).2 hl, ?_, hmain, ?_⟩
  · intro fuel hle
    refine ⟨?_, hrun fuel (le_trans (le_max_right _ _) hle)⟩
    rw [hn1 fuel (le_trans (le_max_left _ _) hle) []]
    simp
  · intro h
    exact ((hmain M).1 h).2.1 hl.1

theorem merge_partial_witness :
    ∃ n out S1, locAA ∈ out ∧
      (∀ fuel, n ≤ fuel →
        wholeObject.expand nestedModule fuel [] true = some out ∧
        Location.mergeLocations nestedModule fuel ((LocationSet.ofList out).erase locAA)
          wholeObject = some S1) ∧
      (∀ X, X ∈ S1 ↔ Below nestedModule wholeObject X ∧ ¬ Below nestedModule X locAA ∧
        ∃ P, Below nestedModule wholeObject P ∧ X ∈ P.children nestedModule ∧
          Below nestedModule P locAA) ∧
      wholeObject ∉ S1 :=
  merge_partial nestedModule wholeObject locAA rfl
    (finiteTree_of_heightLE nestedModule 3 wholeObject (by decide))
    (fun T => by unfold nestedModule; simp only; split_ifs <;> decide)
    ⟨Below.step (show locA ∈ wholeObject.children nestedModule by decide)
      (Below.step (show locAA ∈ locA.children nestedModule by decide) (Below.self locAA)),
     by decide⟩

/-! ## Concrete runs -/

/-- The leaves of the nested struct, in the order `expand` emits them. -/
theorem expand_nested_leaves :
    wholeObject.expand nestedModule 5 [] true = some [locB, locAB, locAA] := by
  decide

/-- All nodes of the nested struct, in the order `expand` emits them. -/
theorem expand_nested_all :
    wholeObject.expand nestedModule 5 [] false
      = some [wholeObject, locA, locB, locB, locAA, locAB, locAB, locAA] := by
  decide

/-- With too little fuel the loop has no result. -/
theorem expand_nested_out_of_fuel :
    wholeObject.expand nestedModule 4 [] false = none := by
  decide

/-- All leaves of the nested struct merge into the whole object. -/
theorem merge_nested_all :
    Location.mergeLocations nestedModule 5 (LocationSet.ofList [locB, locAB, locAA])
      wholeObject = some [wholeObject] := by
  decide

/-- Without the leaf `locAA` nothing merges; without the leaf `locB` the inner struct
merges. -/
theorem merge_nested_partial :
    Location.mergeLocations nestedModule 5
        ((LocationSet.ofList [locB, locAB, locAA]).erase locAA) wholeObject
      = some [locB, locAB] ∧
    Location.mergeLocations nestedModule 5
        ((LocationSet.ofList [locB, locAB, locAA]).erase locB) wholeObject
      = some [locA] := by
  decide

/-! ## Enough fuel gives a result -/

/-- On a finite decomposition tree `expand` returns for every fuel from some bound on,
with the same appended list. -/
theorem expand_returns (Mod : SILModule) (b : Bool) (L : Location)
    (hL : L.Path.isSome = true) (hfin : FiniteTree Mod L) :
    ∃ n out, ∀ fuel, n ≤ fuel → ∀ Locs : LocationList,
      L.expand Mod fuel Locs b = some (Locs ++ out) := by
  obtain ⟨d, hd⟩ := heightLE_of_finiteTree Mod L hfin
  obtain ⟨n, hn⟩ := expand_eq Mod b d L hd hL
  exact ⟨n, _, hn⟩

/-- On a finite decomposition tree `enumerateLocation` returns for every fuel from some
bound on. -/
theorem enumerateLocation_returns (Mod : SILModule) (R : AddressOracle) (b : Bool)
    (Mem : SILValue) (hfin : FiniteTree Mod (Location.ofValue R Mem)) :
    ∃ n, ∀ fuel, n ≤ fuel → ∀ V : Vault,
      ∃ V1, Location.enumerateLocation Mod R b fuel Mem V = some V1 := by
  by_cases hp : (Location.ofValue R Mem).Path.isSome = true
  · obtain ⟨n, out, hn⟩ := expand_returns Mod b _ hp hfin
    refine ⟨n, fun fuel hle V => ?_⟩
    unfold Location.enumerateLocation
    simp only
    split
    · exact ⟨V, rfl⟩
    · rw [hn fuel hle []]
      exact ⟨_, rfl⟩
  · refine ⟨0, fun fuel _ V => ⟨V, ?_⟩⟩
    unfold Location.enumerateLocation
    simp only [Bool.not_eq_true] at hp
    simp [hp]

/-! ## References that cannot be resolved -/

/-- C11: when the root object of a memory reference cannot be resolved (null base) or its
projection path is absent, `enumerateLocation` returns the vault unchanged, location list
and index map alike, for every fuel and without a failure. -/
theorem enumerateLocation_unresolved (Mod : SILModule) (R : AddressOracle) (b : Bool)
    (fuel : Nat) (Mem : SILValue) (V : Vault)
    (h : (Location.ofValue R Mem).Base = none ∨ (Location.ofValue R Mem).Path = none) :
    Location.enumerateLocation Mod R b fuel Mem V = some V := by
  unfold Location.enumerateLocation
  rcases h with h | h <;> simp [h]

theorem enumerateLocation_unresolved_witness :
    Location.enumerateLocation twoFieldModule twoFieldOracle false 0 (some 5)
        { LV := [locA], BM := [(locA, 0)] }
      = some { LV := [locA], BM := [(locA, 0)] } :=
  enumerateLocation_unresolved twoFieldModule twoFieldOracle false 0 (some 5)
    { LV := [locA], BM := [(locA, 0)] } (Or.inl rfl)

/-! ## Termination -/

theorem mergeLoop_returns (Mod : SILModule) (order : List Location)
    (hp : ∀ I ∈ order, I.Path.isSome = true) :
    ∀ S : LocationSet, ∃ S1, mergeLoop Mod order S = some S1 := by
  induction order with
  | nil => intro S; exact ⟨S, rfl⟩
  | cons I rest ih =>
    intro S
    obtain ⟨S1, h1, _, _⟩ := mergeStep_eq Mod S I (hp I (List.mem_cons_self _ _))
    obtain ⟨S2, h2⟩ := ih (fun X hX => hp X (List.mem_cons_of_mem _ hX)) S1
    exact ⟨S2, by simp only [mergeLoop, h1]; exact h2⟩

theorem mergeLocations_returns (Mod : SILModule) (M : Location)
    (hM : M.Path.isSome = true) (hfin : FiniteTree Mod M) :
    ∃ n, ∀ fuel, n ≤ fuel → ∀ S : LocationSet,
      ∃ S1, Location.mergeLocations Mod fuel S M = some S1 := by
  obtain ⟨n, out, hn⟩ := expand_returns Mod false M hM hfin
  refine ⟨n, fun fuel hle S => ?_⟩
  unfold Location.mergeLocations
  split
  · exact ⟨S, rfl⟩
  · have he := hn fuel hle []
    rw [he]
    simp only
    apply mergeLoop_returns
    intro I hI
    rw [List.mem_reverse] at hI
    exact expand_present Mod M false fuel _ hM he I hI

/-- C14: for a location with a present path and a finite decomposition tree there is a
fuel bound from which on the worklist loop of `expand` returns (leaves only or all
nodes), and with it `mergeLocations` for every set and `enumerateLocation` for every
memory reference that resolves to this location. -/
theorem expand_merge_enumerate_terminate (Mod : SILModule) (L : Location)
    (hL : L.Path.isSome = true) (hfin : FiniteTree Mod L) :
    ∃ n, ∀ fuel, n ≤ fuel →
      (∀ (b : Bool) (Locs : LocationList), ∃ out, L.expand Mod fuel Locs b = some out) ∧
      (∀ S : LocationSet, ∃ S1, Location.mergeLocations Mod fuel S L = some S1) ∧
      (∀ (R : AddressOracle) (b : Bool) (Mem : SILValue) (V : Vault),
        Location.ofValue R Mem = L →
        ∃ V1, Location.enumerateLocation Mod R b fuel Mem V = some V1) := by
  obtain ⟨n1, out1, h1⟩ := expand_returns Mod true L hL hfin
  obtain ⟨n2, out2, h2⟩ := expand_returns Mod false L hL hfin
  obtain ⟨n3, h3⟩ := mergeLocations_returns Mod L hL hfin
  refine ⟨max n1 (max n2 n3), fun fuel hle => ⟨?_, ?_, ?_⟩⟩
  · intro b Locs
    cases b with
    | true => exact ⟨_, h1 fuel (by omega) Locs⟩
    | false => exact ⟨_, h2 fuel (by omega) Locs⟩
  · exact h3 fuel (by omega)
  · intro R b Mem V hR
    unfold Location.enumerateLocation
    simp only [hR]
    split
    · exact ⟨V, rfl⟩
    · cases b with
      | true => rw [h1 fuel (by omega) []]; exact ⟨_, rfl⟩
      | false => rw [h2 fuel (by omega) []]; exact ⟨_, rfl⟩

theorem expand_merge_enumerate_terminate_witness :
    ∃ n, ∀ fuel, n ≤ fuel →
      (∀ (b : Bool) (Locs : LocationList),
        ∃ out, wholeObject.expand nestedModule fuel Locs b = some out) ∧
      (∀ S : LocationSet,
        ∃ S1, Location.mergeLocations nestedModule fuel S wholeObject = some S1) ∧
      (∀ (R : AddressOracle) (b : Bool) (Mem : SILValue) (V : Vault),
        Location.ofValue R Mem = wholeObject →
        ∃ V1, Location.enumerateLocation nestedModule R b fuel Mem V = some V1) :=
  expand_merge_enumerate_terminate nestedModule wholeObject rfl
    (finiteTree_of_heightLE nestedModule 3 wholeObject (by decide))

/-! ## The candidates of the merge loop are nodes of the tree -/

theorem children_nil_of_projections (Mod : SILModule) (N : Location)
    (h : Mod.getFirstLevelProjections (Mod.getType N) = []) : N.children Mod = [] := by
  unfold Location.children
  cases N.Path with
  | none => rfl
  | some path => simp [h]

/-- Whatever the fuel, the loop emits only nodes of the tree under `M` when its worklist
and the locations emitted so far are such nodes. -/
theorem expandLoop_below (Mod : SILModule) (M : Location) (b : Bool) (fuel : Nat) :
    ∀ (W Locs out : LocationList),
      (∀ X ∈ W, Below Mod M X ∧ X.Base = M.Base) → (∀ X ∈ Locs, Below Mod M X) →
      expandLoop Mod M.Base b fuel W Locs = some out → ∀ X ∈ out, Below Mod M X := by
  induction fuel with
  | zero =>
    intro W Locs out _ hL h
    rcases eq_nil_or_snoc W with rfl | ⟨W1, L, rfl⟩
    · rw [expandLoop_nil] at h; cases h; exact hL
    · rw [expandLoop_zero] at h; cases h
  | succ n ih =>
    intro W Locs out hW hL h
    rcases eq_nil_or_snoc W with rfl | ⟨W1, L, rfl⟩
    · rw [expandLoop_nil] at h; cases h; exact hL
    · have hW1 : ∀ X ∈ W1, Below Mod M X ∧ X.Base = M.Base := fun X hX =>
        hW X (List.mem_append_left _ hX)
      obtain ⟨hLb, hLB⟩ := hW L (by simp)
      by_cases hleaf : Mod.getFirstLevelProjections (Mod.getType L) = []
      · rw [expandLoop_leaf _ _ _ _ _ _ _ hleaf] at h
        refine ih W1 (Locs ++ [L]) out hW1 ?_ h
        intro X hX
        rcases List.mem_append.1 hX with hX | hX
        · exact hL X hX
        · rw [List.mem_singleton.1 hX]; exact hLb
      · cases hp : L.Path with
        | none => rw [expandLoop_absent _ _ _ _ _ _ _ hp hleaf] at h; cases h
        | some path =>
          rw [expandLoop_node _ _ _ _ _ _ _ path hp hleaf, ← hLB,
            ← children_eq_map Mod L path hp] at h
          have hsub : ∀ X ∈ L.children Mod, Below Mod M X ∧ X.Base = M.Base := by
            intro X hX
            exact ⟨below_child Mod M L X hLb hX,
              (children_present Mod L X hX).2.1.trans hLB⟩
          rw [hLB] at h
          refine ih _ _ out ?_ ?_ h
          · intro X hX
            rcases List.mem_append.1 hX with hX | hX
            · exact hW1 X hX
            · exact hsub X hX
          · intro X hX
            cases b with
            | true => exact hL X hX
            | false =>
              rcases List.mem_append.1 hX with hX | hX
              · exact hL X hX
              · exact (hsub X hX).1

theorem expand_below (Mod : SILModule) (M : Location) (fuel : Nat) (out : LocationList)
    (h : M.expand Mod fuel [] false = some out) : ∀ X ∈ out, Below Mod M X := by
  unfold Location.expand at h
  refine expandLoop_below Mod M false fuel [M] _ out ?_ ?_ h
  · intro X hX
    rw [List.mem_singleton.1 hX]
    exact ⟨Below.self M, rfl⟩
  · intro X hX
    simp at hX
    rw [hX]
    exact Below.self M

/-- One candidate of the merge loop, whatever its path: either the set is unchanged, or
the candidate has first-level locations, all of them members, and they are replaced by
the candidate. -/
theorem mergeStep_cases (Mod : SILModule) (S S1 : LocationSet) (I : Location)
    (h : mergeStep Mod S I = some S1) :
    S1 = S ∨ (I.children Mod ≠ [] ∧ (∀ c ∈ I.children Mod, c ∈ S) ∧
      ∀ Y, Y ∈ S1 ↔ (Y ∈ S ∧ Y ∉ I.children Mod) ∨ Y = I) := by
  cases hp : I.Path with
  | none =>
    left
    unfold mergeStep Location.getFirstLevelLocations at h
    simp only [hp] at h
    by_cases hq : Mod.getFirstLevelProjections (Mod.getType I) = []
    · simp [hq] at h
      exact h.symm
    · simp [hq] at h
  | some path =>
    have hI : I.Path.isSome = true := by rw [hp]; rfl
    obtain ⟨S2, h2, _, hmem⟩ := mergeStep_eq Mod S I hI
    rw [h2] at h
    cases h
    by_cases hc : I.children Mod ≠ [] ∧ ∀ c ∈ I.children Mod, c ∈ S
    · right
      refine ⟨hc.1, hc.2, fun Y => ?_⟩
      rw [hmem Y, if_pos hc]
    · left
      unfold mergeStep at h2
      rw [getFirstLevelLocations_eq Mod I hI] at h2
      simp only at h2
      by_cases he : I.children Mod = []
      · simp [he] at h2
        exact h2.symm
      · have he1 : (I.children Mod).isEmpty = false := by
          cases hh : I.children Mod with
          | nil => exact absurd hh he
          | cons _ _ => rfl
        have hall : (I.children Mod).all (fun X => S.contains X) = false := by
          cases hh : (I.children Mod).all (fun X => S.contains X) with
          | false => rfl
          | true =>
            exfalso
            apply hc
            refine ⟨he, fun c hcm => ?_⟩
            rw [List.all_eq_true] at hh
            exact (contains_iff S c (children_present Mod I c hcm).1).1 (hh c hcm)
        simp [he1, hall] at h2
        exact h2.symm

theorem mergeLoop_preserves (Mod : SILModule) (P : LocationSet → Prop)
    (order : List Location)
    (hstep : ∀ I ∈ order, ∀ S S1 : LocationSet, P S → mergeStep Mod S I = some S1 → P S1) :
    ∀ S S1 : LocationSet, P S → mergeLoop Mod order S = some S1 → P S1 := by
  induction order with
  | nil =>
    intro S S1 hS h
    simp only [mergeLoop, Option.some.injEq] at h
    rw [← h]; exact hS
  | cons I rest ih =>
    intro S S1 hS h
    simp only [mergeLoop] at h
    cases hI : mergeStep Mod S I with
    | none => rw [hI] at h; cases h
    | some S2 =>
      rw [hI] at h
      exact ih (fun J hJ => hstep J (List.mem_cons_of_mem _ hJ)) S2 S1
        (hstep I (List.mem_cons_self _ _) S S2 hS hI) h

theorem mergeLocations_cases (Mod : SILModule) (fuel : Nat) (S S1 : LocationSet)
    (M : Location) (h : Location.mergeLocations Mod fuel S M = some S1) :
    S1 = S ∨ ∃ AllLocs, M.expand Mod fuel [] false = some AllLocs ∧
      mergeLoop Mod AllLocs.reverse S = some S1 := by
  unfold Location.mergeLocations at h
  split at h
  · left; cases h; rfl
  · cases he : M.expand Mod fuel [] false with
    | none => rw [he] at h; cases h
    | some AllLocs =>
      rw [he] at h
      exact Or.inr ⟨AllLocs, rfl, h⟩

/-- An invariant of the set that every candidate from the tree under `M` preserves is
preserved by `mergeLocations`. -/
theorem mergeLocations_preserves (Mod : SILModule) (M : Location) (P : LocationSet → Prop)
    (hstep : ∀ I, Below Mod M I → ∀ S S1 : LocationSet, P S →
      mergeStep Mod S I = some S1 → P S1)
    (fuel : Nat) (S S1 : LocationSet) (hS : P S)
    (h : Location.mergeLocations Mod fuel S M = some S1) : P S1 := by
  rcases mergeLocations_cases Mod fuel S S1 M h with rfl | ⟨AllLocs, he, hl⟩
  · exact hS
  · refine mergeLoop_preserves Mod P AllLocs.reverse ?_ S S1 hS hl
    intro I hI
    rw [List.mem_reverse] at hI
    exact hstep I (expand_below Mod M fuel AllLocs he I hI)

/-! ## Merge frame and coverage -/

/-- C13: a location that is not a node of the decomposition tree under `M` is a member of
the set after `mergeLocations(S, M)` exactly when it was a member before, whenever the
call returns; on the empty set the call returns the empty set at once; and for a present
path and a finite tree the call returns from some fuel on. -/
theorem mergeLocations_frame (Mod : SILModule) (M : Location) (S : LocationSet) :
    (∀ fuel S1, Location.mergeLocations Mod fuel S M = some S1 →
        ∀ X, ¬ Below Mod M X → (X ∈ S1 ↔ X ∈ S)) ∧
      (∀ fuel, Location.mergeLocations Mod fuel [] M = some []) ∧
      (M.Path.isSome = true → FiniteTree Mod M →
        ∃ n, ∀ fuel, n ≤ fuel → ∃ S1, Location.mergeLocations Mod fuel S M = some S1) := by
  refine ⟨?_, ?_, ?_⟩
  · intro fuel S1 h X hX
    refine mergeLocations_preserves Mod M (fun T => X ∈ T ↔ X ∈ S) ?_ fuel S S1 Iff.rfl h
    intro I hI T T1 hT hstep
    rcases mergeStep_cases Mod T T1 I hstep with rfl | ⟨_, _, hmem⟩
    · exact hT
    · rw [hmem X, ← hT]
      constructor
      · rintro (⟨h1, _⟩ | h1)
        · exact h1
        · rw [h1] at hX; exact absurd hI hX
      · intro h1
        exact Or.inl ⟨h1, fun hc => hX (below_child Mod M I X hI hc)⟩
  · intro fuel
    simp [Location.mergeLocations]
  · intro hM hfin
    obtain ⟨n, hn⟩ := mergeLocations_returns Mod M hM hfin
    exact ⟨n, fun fuel hle => hn fuel hle S⟩

theorem mergeLocations_frame_witness :
    ({ Base := some 1, Path := some [] } : Location) ∈
        ([{ Base := some 1, Path := some [] }, wholeObject] : LocationSet) ∧
      ∃ n, ∀ fuel, n ≤ fuel → ∃ S1, Location.mergeLocations nestedModule fuel
        [locB, locAB, locAA, { Base := some 1, Path := some [] }] wholeObject = some S1 :=
  ⟨((mergeLocations_frame nestedModule wholeObject
      [locB, locAB, locAA, { Base := some 1, Path := some [] }]).1 5
      [{ Base := some 1, Path := some [] }, wholeObject] (by decide)
      { Base := some 1, Path := some [] }
      (fun hb => by
        have := (below_present nestedModule wholeObject _ rfl hb).2
        simp [wholeObject] at this)).2 (by decide),
   (mergeLocations_frame nestedModule wholeObject
      [locB, locAB, locAA, { Base := some 1, Path := some [] }]).2.2 rfl
      (finiteTree_of_heightLE nestedModule 3 wholeObject (by decide))⟩

theorem mergeStep_coverage (Mod : SILModule) (M I l : Location) (S S1 : LocationSet)
    (hI : Below Mod M I) (hl : l.children Mod = [])
    (h : mergeStep Mod S I = some S1) :
    CoveredIn Mod M S1 l ↔ CoveredIn Mod M S l := by
  rcases mergeStep_cases Mod S S1 I h with rfl | ⟨hne, hall, hmem⟩
  · exact Iff.rfl
  · constructor
    · rintro ⟨A, hA, hAl, hAS⟩
      rcases (hmem A).1 hAS with h1 | h1
      · exact ⟨A, hA, hAl, h1.1⟩
      · subst h1
        cases hAl with
        | self => exact absurd hl hne
        | @step _ c _ hc hb => exact ⟨c, below_child Mod M A c hA hc, hb, hall c hc⟩
    · rintro ⟨A, hA, hAl, hAS⟩
      by_cases hc : A ∈ I.children Mod
      · exact ⟨I, hI, Below.step hc hAl, (hmem I).2 (Or.inr rfl)⟩
      · exact ⟨A, hA, hAl, (hmem A).2 (Or.inl ⟨hAS, hc⟩)⟩

/-- C17: whenever `mergeLocations(S, M)` returns, a leaf of the decomposition tree under
`M` is covered by the result (the leaf itself or a node of the tree above it is a
member) exactly when it was covered by `S`; and for a present path and a finite tree the
call returns from some fuel on. -/
theorem mergeLocations_coverage (Mod : SILModule) (M : Location) (S : LocationSet) :
    (∀ fuel S1, Location.mergeLocations Mod fuel S M = some S1 →
        ∀ l, IsLeafOf Mod M l → (CoveredIn Mod M S1 l ↔ CoveredIn Mod M S l)) ∧
      (M.Path.isSome = true → FiniteTree Mod M →
        ∃ n, ∀ fuel, n ≤ fuel → ∃ S1, Location.mergeLocations Mod fuel S M = some S1) := by
  refine ⟨?_, ?_⟩
  · intro fuel S1 h l hl
    have hlc : l.children Mod = [] := children_nil_of_projections Mod l hl.2
    refine mergeLocations_preserves Mod M
      (fun T => CoveredIn Mod M T l ↔ CoveredIn Mod M S l) ?_ fuel S S1 Iff.rfl h
    intro I hI T T1 hT hstep
    rw [mergeStep_coverage Mod M I l T T1 hI hlc hstep]
    exact hT
  · intro hM hfin
    obtain ⟨n, hn⟩ := mergeLocations_returns Mod M hM hfin
    exact ⟨n, fun fuel hle => hn fuel hle S⟩

theorem mergeLocations_coverage_witness :
    (CoveredIn nestedModule wholeObject [locA] locAA ↔
        CoveredIn nestedModule wholeObject [locAB, locAA] locAA) ∧
      ∃ n, ∀ fuel, n ≤ fuel → ∃ S1, Location.mergeLocations nestedModule fuel
        [locAB, locAA] wholeObject = some S1 :=
  ⟨(mergeLocations_coverage nestedModule wholeObject [locAB, locAA]).1 5 [locA]
      (by decide) locAA
      ⟨Below.step (show locA ∈ wholeObject.children nestedModule by decide)
        (Below.step (show locAA ∈ locA.children nestedModule by decide)
          (Below.self locAA)), by decide⟩,
   (mergeLocations_coverage nestedModule wholeObject [locAB, locAA]).2 rfl
      (finiteTree_of_heightLE nestedModule 3 wholeObject (by decide))⟩

/-! ## The merged set is the coarsest form -/

theorem mergeLoop_noop (Mod : SILModule) (M : Location) (S : LocationSet)
    (hM : M.Path.isSome = true)
    (hS : ∀ I, Below Mod M I → I.children Mod ≠ [] → ¬ ∀ c ∈ I.children Mod, c ∈ S)
    (order : List Location) (ho : ∀ I ∈ order, Below Mod M I) :
    mergeLoop Mod order S = some S := by
  induction order with
  | nil => rfl
  | cons I rest ih =>
    have hI := ho I (List.mem_cons_self _ _)
    obtain ⟨S1, h1, _, _⟩ := mergeStep_eq Mod S I (below_present Mod M I hM hI).1
    have hS1 : S1 = S := by
      rcases mergeStep_cases Mod S S1 I h1 with h | ⟨hne, hall, _⟩
      · exact h
      · exact absurd hall (hS I hI hne)
    subst hS1
    simp only [mergeLoop, h1]
    exact ih (fun J hJ => ho J (List.mem_cons_of_mem _ hJ))

/-- C16: for a location `M` with a present path, a finite decomposition tree and
duplicate-free first-level projections, and every set `S`: with enough fuel
`mergeLocations(S, M)` returns a set in which no node of the tree has a non-empty list of
first-level locations that are all members, and a second call on the result returns the
result unchanged. -/
theorem mergeLocations_coarsest (Mod : SILModule) (M : Location) (S : LocationSet)
    (hM : M.Path.isSome = true) (hfin : FiniteTree Mod M)
    (hnd : ∀ T, (Mod.getFirstLevelProjections T).Nodup) :
    ∃ n S1, (∀ fuel, n ≤ fuel →
        Location.mergeLocations Mod fuel S M = some S1 ∧
        Location.mergeLocations Mod fuel S1 M = some S1) ∧
      ∀ I, Below Mod M I → I.children Mod ≠ [] → ¬ ∀ c ∈ I.children Mod, c ∈ S1 := by
  obtain ⟨n1, S1, hrun, _, hchar⟩ := mergeLocations_char Mod M S hM hfin hnd
  obtain ⟨n2, out, hout⟩ := expand_returns Mod false M hM hfin
  have hcoarse : ∀ I, Below Mod M I → I.children Mod ≠ [] →
      ¬ ∀ c ∈ I.children Mod, c ∈ S1 := by
    intro I hI hne hall
    have hcov : ∀ c ∈ I.children Mod, Covered Mod S c := by
      intro c hc
      rcases ((hchar c).1 (hall c hc)).1 with h | h
      · exact Covered.mem h
      · exact Covered.merge h.2.1 h.2.2
    cases hc : I.children Mod with
    | nil => exact hne hc
    | cons c cs =>
      have hcm : c ∈ I.children Mod := by rw [hc]; exact List.mem_cons_self _ _
      exact ((hchar c).1 (hall c hcm)).2 ⟨I, hI, hcm, hcov⟩
  refine ⟨max n1 n2, S1, fun fuel hle => ⟨hrun fuel (by omega), ?_⟩, hcoarse⟩
  unfold Location.mergeLocations
  split
  · rfl
  · have he := hout fuel (by omega) []
    rw [he]
    simp only
    apply mergeLoop_noop Mod M S1 hM hcoarse
    intro I hI
    rw [List.mem_reverse] at hI
    exact expand_below Mod M fuel _ he I hI

theorem mergeLocations_coarsest_witness :
    ∃ n S1, (∀ fuel, n ≤ fuel →
        Location.mergeLocations nestedModule fuel [locB, locAB, locAA] wholeObject
          = some S1 ∧
        Location.mergeLocations nestedModule fuel S1 wholeObject = some S1) ∧
      ∀ I, Below nestedModule wholeObject I → I.children nestedModule ≠ [] →
        ¬ ∀ c ∈ I.children nestedModule, c ∈ S1 :=
  mergeLocations_coarsest nestedModule wholeObject [locB, locAB, locAA] rfl
    (finiteTree_of_heightLE nestedModule 3 wholeObject (by decide))
    (fun T => by unfold nestedModule; simp only; split_ifs <;> decide)

/-! ## Ancestors come first in the expansion -/

theorem flatMap_eq_append_cons (f : Location → List Location) :
    ∀ (l : List Location) (A : List Location) (y : Location) (B : List Location),
      l.flatMap f = A ++ y :: B →
      ∃ l1 c l2 A2 B2, l = l1 ++ c :: l2 ∧ f c = A2 ++ y :: B2 ∧
        A = l1.flatMap f ++ A2 ∧ B = B2 ++ l2.flatMap f := by
  intro l
  induction l with
  | nil => intro A y B h; simp at h
  | cons a l ih =>
    intro A y B h
    rw [List.flatMap_cons, List.append_eq_append_iff] at h
    rcases h with ⟨a1, hA, hl⟩ | ⟨c1, hfa, hB⟩
    · obtain ⟨l1, c, l2, A2, B2, h1, h2, h3, h4⟩ := ih a1 y B hl
      refine ⟨a :: l1, c, l2, A2, B2, by rw [h1]; rfl, h2, ?_, h4⟩
      rw [hA, h3, List.flatMap_cons, List.append_assoc]
    · cases c1 with
      | nil =>
        simp only [List.nil_append] at hB
        rw [List.append_nil] at hfa
        obtain ⟨l1, c, l2, A2, B2, h1, h2, h3, h4⟩ := ih [] y B (by simpa using hB.symm)
        refine ⟨a :: l1, c, l2, A2, B2, by rw [h1]; rfl, h2, ?_, h4⟩
        rw [List.flatMap_cons, ← hfa, List.append_assoc, ← h3, List.append_nil]
      | cons z c2 =>
        simp only [List.cons_append, List.cons.injEq] at hB
        obtain ⟨rfl, hB⟩ := hB
        exact ⟨[], a, l, A, c2, rfl, hfa, by simp, hB⟩

/-- A node of the tree under `N` other than `N` that lies above `Y` lies in the tree
under the first-level location of `N` that `Y` lies under. -/
theorem below_child_of_above (Mod : SILModule) (N X Y c : Location)
    (hX : Below Mod N X) (hne : X ≠ N) (hXY : Below Mod X Y)
    (hc : c ∈ N.children Mod) (hcY : Below Mod c Y) : Below Mod c X := by
  cases hX with
  | self => exact absurd rfl hne
  | @step _ c1 _ hc1 hb =>
    have : c1 = c := below_siblings Mod N c1 c Y hc1 hc (below_trans Mod c1 X Y hb hXY) hcY
    rw [← this]; exact hb

theorem subtreeLocs_ancestors_first (Mod : SILModule) (d : Nat) :
    ∀ N : Location, heightLE Mod d N = true →
      ∀ (A : List Location) (Y : Location) (B : List Location),
        subtreeLocs Mod false d N = A ++ Y :: B →
        ∀ X, Below Mod N X → X ≠ N → (∃ c ∈ X.children Mod, Below Mod c Y) → X ∈ A := by
  induction d with
  | zero => intro N h; simp [heightLE] at h
  | succ d ih =>
    intro N hh A Y B hsplit X hX hne hXY
    obtain ⟨cx, hcx, hcxY⟩ := hXY
    have hXYb : Below Mod X Y := Below.step hcx hcxY
    simp only [heightLE, List.all_eq_true] at hh
    by_cases hc : N.children Mod = []
    · exact absurd (below_leaf Mod N X hc hX) hne
    · have hc1 : (N.children Mod).isEmpty = false := by
        cases h : N.children Mod with
        | nil => exact absurd h hc
        | cons _ _ => rfl
      simp only [subtreeLocs, hc1, Bool.false_eq_true, if_false] at hsplit
      have inF : ∀ A1, (N.children Mod).reverse.flatMap (subtreeLocs Mod false d)
          = A1 ++ Y :: B → X ∈ N.children Mod ++ A1 := by
        intro A1 hF
        obtain ⟨l1, c, l2, A2, B2, h1, h2, h3, _⟩ := flatMap_eq_append_cons _ _ A1 Y B hF
        have hcm : c ∈ N.children Mod := by
          rw [← List.mem_reverse, h1]; simp
        have hcY : Below Mod c Y :=
          below_of_mem_subtreeLocs Mod d c Y (hh c hcm) (by rw [h2]; simp)
        have hcX : Below Mod c X := below_child_of_above Mod N X Y c hX hne hXYb hcm hcY
        by_cases hXc : X = c
        · rw [hXc]; exact List.mem_append_left _ hcm
        · have := ih c (hh c hcm) A2 Y B2 h2 X hcX hXc ⟨cx, hcx, hcxY⟩
          rw [h3]
          exact List.mem_append_right _ (List.mem_append_right _ this)
      rw [List.append_eq_append_iff] at hsplit
      rcases hsplit with ⟨a1, hA, hF⟩ | ⟨c1, hcs, hYB⟩
      · rw [hA]; exact inF a1 hF
      · cases c1 with
        | nil =>
          rw [List.append_nil] at hcs
          have := inF [] (by simpa using hYB.symm)
          rw [List.append_nil, hcs] at this
          exact this
        | cons z c2 =>
          simp only [List.cons_append, List.cons.injEq] at hYB
          obtain ⟨rfl, _⟩ := hYB
          exfalso
          have hYm : Y ∈ N.children Mod := by rw [hcs]; simp
          have hYX : Below Mod Y X :=
            below_child_of_above Mod N X Y Y hX hne hXYb hYm (Below.self Y)
          exact not_below_of_child Mod X cx Y hcx hcxY hYX

/-- C15: with enough fuel `expand(onlyLeaf=false)` on a location with a present path and
a finite decomposition tree returns a list `out` in which, for every node `N` of the tree
and every location `D` properly below `N`, both occur and every occurrence of `D` comes
after an occurrence of `N`; so in the reversed list every occurrence of `D` is followed by
an occurrence of `N`. -/
theorem expand_ancestors_first (Mod : SILModule) (M : Location)
    (hM : M.Path.isSome = true) (hfin : FiniteTree Mod M) :
    ∃ n out, (∀ fuel, n ≤ fuel → M.expand Mod fuel [] false = some out) ∧
      ∀ N D, Below Mod M N → (∃ c ∈ N.children Mod, Below Mod c D) →
        N ∈ out ∧ D ∈ out ∧ (∀ A B, out = A ++ D :: B → N ∈ A) ∧
          (∀ A B, out.reverse = A ++ D :: B → N ∈ B) := by
  obtain ⟨d, hd⟩ := heightLE_of_finiteTree Mod M hfin
  obtain ⟨n, hn⟩ := expand_eq Mod false d M hd hM
  have hmem : ∀ X, X ∈ M :: subtreeLocs Mod false d M ↔ Below Mod M X := by
    intro X
    rw [List.mem_cons, mem_subtreeLocs_all Mod d M X hd]
    constructor
    · rintro (h | h | h)
      · rw [h]; exact Below.self M
      · exact h.1
      · rw [h.1]; exact Below.self M
    · intro h
      by_cases hX : X = M
      · exact Or.inl hX
      · exact Or.inr (Or.inl ⟨h, hX⟩)
  have hfirst : ∀ N D, Below Mod M N → (∃ c ∈ N.children Mod, Below Mod c D) →
      ∀ A B, M :: subtreeLocs Mod false d M = A ++ D :: B → N ∈ A := by
    intro N D hN hND A B hsplit
    obtain ⟨c, hc, hcD⟩ := hND
    cases A with
    | nil =>
      simp only [List.nil_append, List.cons.injEq] at hsplit
      obtain ⟨rfl, _⟩ := hsplit
      exact (not_below_of_child Mod N c M hc hcD hN).elim
    | cons a A1 =>
      simp only [List.cons_append, List.cons.injEq] at hsplit
      obtain ⟨rfl, hs⟩ := hsplit
      by_cases hNM : N = M
      · rw [hNM]; exact List.mem_cons_self _ _
      · exact List.mem_cons_of_mem _
          (subtreeLocs_ancestors_first Mod d M hd A1 D B hs N hN hNM ⟨c, hc, hcD⟩)
  refine ⟨n, M :: subtreeLocs Mod false d M, ?_, ?_⟩
  · intro fuel hle
    rw [hn fuel hle []]
    simp
  · intro N D hN hND
    refine ⟨(hmem N).2 hN, ?_, hfirst N D hN hND, ?_⟩
    · obtain ⟨c, hc, hcD⟩ := hND
      exact (hmem D).2 (below_trans Mod M N D hN (Below.step hc hcD))
    · intro A B hrev
      rw [List.reverse_eq_append_iff, List.reverse_cons, List.append_assoc,
        List.singleton_append] at hrev
      have := hfirst N D hN hND B.reverse A.reverse hrev
      exact List.mem_reverse.1 this

theorem expand_ancestors_first_witness :
    ∃ n out, (∀ fuel, n ≤ fuel → wholeObject.expand nestedModule fuel [] false = some out) ∧
      ∀ N D, Below nestedModule wholeObject N →
        (∃ c ∈ N.children nestedModule, Below nestedModule c D) →
        N ∈ out ∧ D ∈ out ∧ (∀ A B, out = A ++ D :: B → N ∈ A) ∧
          (∀ A B, out.reverse = A ++ D :: B → N ∈ B) :=
  expand_ancestors_first nestedModule wholeObject rfl
    (finiteTree_of_heightLE nestedModule 3 wholeObject (by decide))

/-! ## The order and the multiplicity of the emitted locations -/

/-- C12, the code at the failing input: on the skewed struct the worklist is popped at its
back, so the subtree of `fieldB` is finished before the subtree of `fieldA` is opened.
With all nodes kept `locBAA` (depth 3) is emitted before `locAA` (depth 2), and with
leaves only the result is `[locBAA, locAA]`; neither list is in level order. -/
theorem expand_not_level_order :
    wholeObject.expand skewModule 6 [] false
        = some [wholeObject, locA, locB, locBA, locBAA, locBAA, locAA, locAA] ∧
      wholeObject.expand skewModule 6 [] true = some [locBAA, locAA] ∧
      ¬ InLevelOrder [wholeObject, locA, locB, locBA, locBAA, locBAA, locAA, locAA] ∧
      ¬ InLevelOrder [locBAA, locAA] := by
  unfold InLevelOrder
  decide

/-- C18, the code at the failing input: with all nodes kept the leaf `locB` of the
two-field struct, which is not the expanded location itself, is emitted twice (when it is
pushed and again when it is popped), and so is every leaf of the nested struct. -/
theorem expand_emits_leaves_twice :
    wholeObject.expand twoFieldModule 3 [] false
        = some [wholeObject, locA, locB, locB, locA] ∧
      List.count locB [wholeObject, locA, locB, locB, locA] = 2 ∧
      locB ≠ wholeObject ∧
      wholeObject.expand nestedModule 5 [] false
        = some [wholeObject, locA, locB, locB, locAA, locAB, locAB, locAA] ∧
      List.count locAA [wholeObject, locA, locB, locB, locAA, locAB, locAB, locAA] = 2 := by
  decide

/-! ## Aliasing inside one decomposition tree -/

/-- Within the tree under `M`, a node whose path ends with the path of the node `X` lies
in the tree under `X`. -/
theorem below_of_suffix (Mod : SILModule) (M X : Location) (px : ProjectionPath)
    (hM : M.Path.isSome = true) (hX : Below Mod M X) (hpx : X.Path = some px) :
    ∀ (t : List Projection) (Y : Location), Below Mod M Y → Y.Path = some (t ++ px) →
      Below Mod X Y := by
  have hXB := (below_present Mod M X hM hX).2
  intro t
  induction t with
  | nil =>
    intro Y hY hpy
    have hYB := (below_present Mod M Y hM hY).2
    have : Y = X := by
      obtain ⟨b1, p1⟩ := Y
      obtain ⟨b2, p2⟩ := X
      simp only at hpy hpx hYB hXB
      simp only [List.nil_append] at hpy
      rw [hpy, hpx, hYB, hXB]
    rw [this]; exact Below.self X
  | cons P t ih =>
    intro Y hY hpy
    rcases below_cases Mod M Y hY with rfl | ⟨Pn, hPn, hYc⟩
    · exfalso
      rcases below_path Mod Y X hX with h | ⟨path, q, h1, _, h2⟩
      · rw [h, hpy] at hpx
        have := congrArg List.length (Option.some.inj hpx)
        simp at this
        omega
      · rw [hpy] at h1
        cases h1
        rw [h2] at hpx
        have := congrArg List.length (Option.some.inj hpx)
        simp at this
        omega
    · obtain ⟨path, Q, hp, _, rfl⟩ := (mem_children_iff Mod Pn Y).1 hYc
      simp only [Option.some.injEq, List.cons_append, List.cons.injEq] at hpy
      have := ih Pn hPn (by rw [hp, hpy.2])
      exact below_trans Mod X Pn _ this (Below.step hYc (Below.self _))

theorem leaves_diverge (Mod : SILModule) (M X Y : Location) (px py : ProjectionPath)
    (hM : M.Path.isSome = true) (hX : IsLeafOf Mod M X) (hY : IsLeafOf Mod M Y)
    (hpx : X.Path = some px) (hpy : Y.Path = some py) (hne : X.Path ≠ Y.Path) :
    ProjectionPath.hasNonEmptySymmetricDifference px py = true := by
  cases hd : ProjectionPath.hasNonEmptySymmetricDifference px py with
  | true => rfl
  | false =>
    exfalso
    unfold ProjectionPath.hasNonEmptySymmetricDifference ProjectionPath.outerToInner at hd
    have key : ∀ (A B : Location) (pa pb : ProjectionPath), IsLeafOf Mod M A →
        IsLeafOf Mod M B → A.Path = some pa → B.Path = some pb →
        pa.reverse <+: pb.reverse → A.Path = B.Path := by
      intro A B pa pb hA hB hpa hpb hpre
      obtain ⟨t, ht⟩ := List.reverse_prefix.1 hpre
      have hb : Below Mod A B :=
        below_of_suffix Mod M A pa hM hA.1 hpa t B hB.1 (by rw [hpb, ht])
      rw [below_leaf Mod A B (children_nil_of_projections Mod A hA.2) hb]
    rcases overlap_of_remaindersNonEmpty _ _ hd with h | h
    · exact hne (key X Y px py hX hY hpx hpy h)
    · exact hne (key Y X py px hY hX hpy hpx h).symm

/-- C19: for a location `M` with a present path and a finite decomposition tree, with
enough fuel `expand(onlyLeaf=true)` returns a list of which any two members with
different paths do not may-alias, whatever the alias oracle answers on the shared base. -/
theorem distinct_leaves_no_alias (Mod : SILModule) (M : Location) (AA : AliasAnalysis)
    (hM : M.Path.isSome = true) (hfin : FiniteTree Mod M) :
    ∃ n out, (∀ fuel, n ≤ fuel → M.expand Mod fuel [] true = some out) ∧
      ∀ X ∈ out, ∀ Y ∈ out, X.Path ≠ Y.Path → X.isMayAliasLocation Y AA = some false := by
  obtain ⟨d, hd⟩ := heightLE_of_finiteTree Mod M hfin
  obtain ⟨n, hn⟩ := expand_eq Mod true d M hd hM
  refine ⟨n, subtreeLocs Mod true d M, ?_, ?_⟩
  · intro fuel hle
    rw [hn fuel hle []]
    simp
  · intro X hX Y hY hne
    have hXl := (mem_subtreeLocs_leaves Mod d M X hd hM).1 hX
    have hYl := (mem_subtreeLocs_leaves Mod d M Y hd hM).1 hY
    obtain ⟨px, hpx⟩ := Option.isSome_iff_exists.1 (below_present Mod M X hM hXl.1).1
    obtain ⟨py, hpy⟩ := Option.isSome_iff_exists.1 (below_present Mod M Y hM hYl.1).1
    have hdiv := leaves_diverge Mod M X Y px py hM hXl hYl hpx hpy hne
    unfold Location.isMayAliasLocation Location.hasNonEmptySymmetricPathDifference
    rw [hpx, hpy]
    cases AA.isNoAlias X.Base Y.Base <;> simp [hdiv]

theorem distinct_leaves_no_alias_witness :
    ∃ n out, (∀ fuel, n ≤ fuel → wholeObject.expand nestedModule fuel [] true = some out) ∧
      ∀ X ∈ out, ∀ Y ∈ out, X.Path ≠ Y.Path →
        X.isMayAliasLocation Y identityAA = some false :=
  distinct_leaves_no_alias nestedModule wholeObject identityAA rfl
    (finiteTree_of_heightLE nestedModule 3 wholeObject (by decide))

theorem may_alias_below (Mod : SILModule) (L D : Location) (AA : AliasAnalysis)
    (hL : L.Path.isSome = true) (hAA : AA.isNoAlias L.Base L.Base = false)
    (hD : Below Mod L D) :
    L.isMayAliasLocation D AA = some true ∧ D.isMayAliasLocation L AA = some true := by
  obtain ⟨p, hp⟩ := Option.isSome_iff_exists.1 hL
  have hshape : ∃ q, D = { Base := L.Base, Path := some (q ++ p) } := by
    rcases below_path Mod L D hD with rfl | ⟨path, q, h1, _, h2⟩
    · refine ⟨[], ?_⟩
      obtain ⟨b, pl⟩ := D
      simp only at hp
      simp [hp]
    · rw [hp] at h1
      cases h1
      exact ⟨q, h2⟩
  obtain ⟨q, rfl⟩ := hshape
  have hpre : ProjectionPath.outerToInner p <+: ProjectionPath.outerToInner (q ++ p) := by
    unfold ProjectionPath.outerToInner
    rw [List.reverse_append]
    exact List.prefix_append _ _
  have h1 : ProjectionPath.hasNonEmptySymmetricDifference p (q ++ p) = false :=
    remaindersNonEmpty_of_overlap _ _ (Or.inl hpre)
  have h2 : ProjectionPath.hasNonEmptySymmetricDifference (q ++ p) p = false :=
    remaindersNonEmpty_of_overlap _ _ (Or.inr hpre)
  unfold Location.isMayAliasLocation Location.hasNonEmptySymmetricPathDifference
  simp [hp, hAA, h1, h2]

/-- C20: for a location `L` with a present path and an oracle that does not report
no-alias of the base of `L` with itself, `L` and every location that
`L.expand(onlyLeaf=false)` returns or that `L.getFirstLevelLocations()` appends may-alias,
in both directions; and on a finite decomposition tree `expand` returns from some fuel
on. -/
theorem sublocation_may_alias (Mod : SILModule) (L : Location) (AA : AliasAnalysis)
    (hL : L.Path.isSome = true) (hAA : AA.isNoAlias L.Base L.Base = false) :
    (∀ fuel out D, L.expand Mod fuel [] false = some out → D ∈ out →
        L.isMayAliasLocation D AA = some true ∧ D.isMayAliasLocation L AA = some true) ∧
      (∃ ds, L.getFirstLevelLocations [] Mod = some ds ∧ ∀ D ∈ ds,
        L.isMayAliasLocation D AA = some true ∧ D.isMayAliasLocation L AA = some true) ∧
      (FiniteTree Mod L →
        ∃ n out, ∀ fuel, n ≤ fuel → L.expand Mod fuel [] false = some out) := by
  refine ⟨?_, ?_, ?_⟩
  · intro fuel out D he hD
    exact may_alias_below Mod L D AA hL hAA (expand_below Mod L fuel out he D hD)
  · refine ⟨L.children Mod, getFirstLevelLocations_eq Mod L hL, ?_⟩
    intro D hD
    exact may_alias_below Mod L D AA hL hAA (Below.step hD (Below.self D))
  · intro hfin
    obtain ⟨n, out, hn⟩ := expand_returns Mod false L hL hfin
    refine ⟨n, out, fun fuel hle => ?_⟩
    have := hn fuel hle []
    rw [List.nil_append] at this
    exact this

theorem sublocation_may_alias_witness :
    (locA.isMayAliasLocation locAB identityAA = some true ∧
        locAB.isMayAliasLocation locA identityAA = some true) ∧
      (∃ ds, locA.getFirstLevelLocations [] nestedModule = some ds ∧ ∀ D ∈ ds,
        locA.isMayAliasLocation D identityAA = some true ∧
          D.isMayAliasLocation locA identityAA = some true) ∧
      ∃ n out, ∀ fuel, n ≤ fuel → locA.expand nestedModule fuel [] false = some out :=
  ⟨(sublocation_may_alias nestedModule locA identityAA rfl rfl).1 3
      [locA, locAA, locAB, locAB, locAA] locAB (by decide) (by decide),
   (sublocation_may_alias nestedModule locA identityAA rfl rfl).2.1,
   (sublocation_may_alias nestedModule locA identityAA rfl rfl).2.2
      (finiteTree_of_heightLE nestedModule 2 locA (by decide))⟩

/-! ## The vault as the list of the reached locations -/

theorem enumerateLoop_append (A B : LocationList) :
    ∀ V : Vault, enumerateLoop (A ++ B) V = enumerateLoop B (enumerateLoop A V) := by
  induction A with
  | nil => intro V; rfl
  | cons a A ih =>
    intro V
    rw [List.cons_append]
    simp only [enumerateLoop]
    exact ih _

/-- After the loop a location of the list is mapped to the position of its last
occurrence in the new location list. -/
theorem enumerateLoop_lookup_last (Locs : LocationList) (K : Location)
    (hp : K.Path.isSome = true) (hK : K ∈ Locs) :
    ∀ V : Vault, ∃ j, (enumerateLoop Locs V).BM.lookup K = some j ∧ V.LV.length ≤ j ∧
      (V.LV ++ Locs)[j]? = some K ∧ ∀ i, j < i → (V.LV ++ Locs)[i]? ≠ some K := by
  induction Locs with
  | nil => simp at hK
  | cons Loc rest ih =>
    intro V
    simp only [enumerateLoop]
    by_cases hr : K ∈ rest
    · obtain ⟨j, h1, h2, h3, h4⟩ :=
        ih hr { LV := V.LV ++ [Loc], BM := V.BM.set Loc V.LV.length }
      refine ⟨j, h1, ?_, ?_, ?_⟩
      · simp at h2; omega
      · simpa using h3
      · intro i hi
        have := h4 i hi
        simpa using this
    · have hKL : K = Loc := by
        rcases List.mem_cons.1 hK with h | h
        · exact h
        · exact absurd h hr
      subst hKL
      refine ⟨V.LV.length, ?_, le_refl _, ?_, ?_⟩
      · rw [enumerateLoop_lookup_other rest K hr, lookup_set]
        have : K.isEqual K = true := (isEqual_iff _ _).2 ⟨rfl, hp⟩
        simp [this]
      · rw [List.getElem?_append_right (le_refl _)]
        simp
      · intro i hi hget
        rw [List.getElem?_append_right (le_of_lt hi)] at hget
        obtain ⟨m, hm⟩ : ∃ m, i - V.LV.length = m + 1 := ⟨i - V.LV.length - 1, by omega⟩
        rw [hm, List.getElem?_cons_succ] at hget
        exact hr (List.getElem?_mem hget)

theorem enumerateLocation_eq (Mod : SILModule) (R : AddressOracle) (b : Bool) (fuel : Nat)
    (Mem : SILValue) (V : Vault) :
    Location.enumerateLocation Mod R b fuel Mem V
      = (accessedLocs Mod R b fuel Mem).map (fun Locs => enumerateLoop Locs V) := by
  unfold Location.enumerateLocation accessedLocs
  simp only
  split
  · rfl
  · cases (Location.ofValue R Mem).expand Mod fuel [] b <;> rfl

theorem enumerateInsts_eq (Mod : SILModule) (R : AddressOracle) (b : Bool) (fuel : Nat)
    (Is : List SILInstruction) :
    ∀ V : Vault, enumerateInsts Mod R b fuel Is V
      = (functionLocs Mod R b fuel Is).map (fun Locs => enumerateLoop Locs V) := by
  induction Is with
  | nil => intro V; rfl
  | cons I rest ih =>
    intro V
    have hI : enumerateInst Mod R b fuel I V
        = (instLocs Mod R b fuel I).map (fun Locs => enumerateLoop Locs V) := by
      cases I with
      | LoadInst Operand => exact enumerateLocation_eq Mod R b fuel Operand V
      | StoreInst Src Dest => exact enumerateLocation_eq Mod R b fuel Dest V
      | Other => rfl
    simp only [enumerateInsts, functionLocs, hI]
    cases instLocs Mod R b fuel I with
    | none => rfl
    | some Locs =>
      simp only [Option.map_some']
      rw [ih]
      cases functionLocs Mod R b fuel rest with
      | none => rfl
      | some Rest => simp [enumerateLoop_append]

theorem accessedLocs_present (Mod : SILModule) (R : AddressOracle) (b : Bool) (fuel : Nat)
    (Mem : SILValue) (Locs : LocationList) (h : accessedLocs Mod R b fuel Mem = some Locs) :
    ∀ X ∈ Locs, X.Path.isSome = true := by
  unfold accessedLocs at h
  simp only at h
  split at h
  · cases h; simp
  · next hg =>
    have hp : (Location.ofValue R Mem).Path.isSome = true := by
      cases hq : (Location.ofValue R Mem).Path.isSome with
      | true => rfl
      | false => simp [hq] at hg
    exact expand_present Mod _ b fuel Locs hp h

theorem functionLocs_present (Mod : SILModule) (R : AddressOracle) (b : Bool) (fuel : Nat)
    (Is : List SILInstruction) :
    ∀ Ls : LocationList, functionLocs Mod R b fuel Is = some Ls →
      ∀ X ∈ Ls, X.Path.isSome = true := by
  induction Is with
  | nil => intro Ls h; simp [functionLocs] at h; subst h; simp
  | cons I rest ih =>
    intro Ls h
    simp only [functionLocs] at h
    cases hI : instLocs Mod R b fuel I with
    | none => rw [hI] at h; cases h
    | some Locs =>
      rw [hI] at h
      cases hr : functionLocs Mod R b fuel rest with
      | none => rw [hr] at h; cases h
      | some Rest =>
        rw [hr] at h
        cases h
        have hLocs : ∀ X ∈ Locs, X.Path.isSome = true := by
          cases I with
          | LoadInst Operand => exact accessedLocs_present Mod R b fuel Operand Locs hI
          | StoreInst Src Dest => exact accessedLocs_present Mod R b fuel Dest Locs hI
          | Other => simp [instLocs] at hI; subst hI; simp
        intro X hX
        rcases List.mem_append.1 hX with hX | hX
        · exact hLocs X hX
        · exact ih Rest hr X hX

theorem subtreeLocs_leaves_ne_nil (Mod : SILModule) (d : Nat) :
    ∀ N : Location, heightLE Mod d N = true → subtreeLocs Mod true d N ≠ [] := by
  induction d with
  | zero => intro N h; simp [heightLE] at h
  | succ d ih =>
    intro N hh
    simp only [heightLE, List.all_eq_true] at hh
    cases hc : N.children Mod with
    | nil => simp [subtreeLocs, hc]
    | cons c cs =>
      have hcm : c ∈ N.children Mod := by rw [hc]; exact List.mem_cons_self _ _
      have := ih c (hh c hcm)
      simp only [subtreeLocs, hc, List.isEmpty_cons, Bool.false_eq_true, if_false, if_true,
        List.nil_append, List.reverse_cons, List.flatMap_append, List.flatMap_cons,
        List.flatMap_nil, List.append_nil, ne_eq, List.append_eq_nil, not_and]
      intro _
      exact this

theorem accessedLocs_returns (Mod : SILModule) (R : AddressOracle) (b : Bool)
    (hfin : ∀ L : Location, FiniteTree Mod L) (Mem : SILValue) :
    ∃ n, ∀ fuel, n ≤ fuel → ∃ Locs, accessedLocs Mod R b fuel Mem = some Locs := by
  by_cases hp : (Location.ofValue R Mem).Path.isSome = true
  · obtain ⟨n, out, hn⟩ := expand_returns Mod b _ hp (hfin (Location.ofValue R Mem))
    refine ⟨n, fun fuel hle => ?_⟩
    unfold accessedLocs
    simp only
    split
    · exact ⟨[], rfl⟩
    · exact ⟨_, hn fuel hle []⟩
  · refine ⟨0, fun fuel _ => ⟨[], ?_⟩⟩
    unfold accessedLocs
    simp only [Bool.not_eq_true] at hp
    simp [hp]

theorem functionLocs_returns (Mod : SILModule) (R : AddressOracle) (b : Bool)
    (hfin : ∀ L : Location, FiniteTree Mod L) (Is : List SILInstruction) :
    ∃ n, ∀ fuel, n ≤ fuel → ∃ Ls, functionLocs Mod R b fuel Is = some Ls := by
  induction Is with
  | nil => exact ⟨0, fun _ _ => ⟨[], rfl⟩⟩
  | cons I rest ih =>
    obtain ⟨n2, h2⟩ := ih
    have hI : ∃ n, ∀ fuel, n ≤ fuel → ∃ Locs, instLocs Mod R b fuel I = some Locs := by
      cases I with
      | LoadInst Operand => exact accessedLocs_returns Mod R b hfin Operand
      | StoreInst Src Dest => exact accessedLocs_returns Mod R b hfin Dest
      | Other => exact ⟨0, fun _ _ => ⟨[], rfl⟩⟩
    obtain ⟨n1, h1⟩ := hI
    refine ⟨max n1 n2, fun fuel hle => ?_⟩
    obtain ⟨Locs, hL⟩ := h1 fuel (by omega)
    obtain ⟨Rest, hR⟩ := h2 fuel (by omega)
    exact ⟨Locs ++ Rest, by simp [functionLocs, hL, hR]⟩

theorem twoFieldModule_finite (L : Location) : FiniteTree twoFieldModule L := by
  refine FiniteTree.node L (fun c hc => FiniteTree.node c (fun c2 hc2 => ?_))
  obtain ⟨path, P, hp, _, rfl⟩ := (mem_children_iff _ L c).1 hc
  simp [Location.children, twoFieldModule] at hc2

/-! ## What `enumerateLocation` and `enumerateLocations` do to the vault -/

/-- C8 (amended): a reference that is skipped (null base or absent path) leaves the vault
unchanged.  For a reference that resolves, whenever `expand` returns the list `Locs` the
call returns a vault whose location list is the old list followed by `Locs`; every
location outside `Locs` keeps its entry of the index map, and every location of `Locs`,
already a key or not, is mapped to the position of its last occurrence in the new list,
at or after the old length.  The call returns only when `expand` does, and on a finite
decomposition tree `expand` returns a non-empty `Locs` from some fuel on. -/
theorem enumerateLocation_frame (Mod : SILModule) (R : AddressOracle) (b : Bool)
    (Mem : SILValue) (V : Vault) :
    ((Location.ofValue R Mem).Base = none ∨ (Location.ofValue R Mem).Path = none →
        ∀ fuel, Location.enumerateLocation Mod R b fuel Mem V = some V) ∧
      ((Location.ofValue R Mem).Base.isSome = true →
        (Location.ofValue R Mem).Path.isSome = true →
        (∀ fuel Locs, (Location.ofValue R Mem).expand Mod fuel [] b = some Locs →
          ∃ V1, Location.enumerateLocation Mod R b fuel Mem V = some V1 ∧
            V1.LV = V.LV ++ Locs ∧
            (∀ K, K ∉ Locs → V1.BM.lookup K = V.BM.lookup K) ∧
            (∀ K, K ∈ Locs → ∃ j, V1.BM.lookup K = some j ∧ V.LV.length ≤ j ∧
              V1.LV[j]? = some K ∧ ∀ i, j < i → V1.LV[i]? ≠ some K)) ∧
        (∀ fuel V1, Location.enumerateLocation Mod R b fuel Mem V = some V1 →
          ∃ Locs, (Location.ofValue R Mem).expand Mod fuel [] b = some Locs) ∧
        (FiniteTree Mod (Location.ofValue R Mem) →
          ∃ n Locs, Locs ≠ [] ∧ ∀ fuel, n ≤ fuel →
            (Location.ofValue R Mem).expand Mod fuel [] b = some Locs)) := by
  refine ⟨?_, ?_⟩
  · intro h fuel
    unfold Location.enumerateLocation
    rcases h with h | h <;> simp [h]
  · intro hB hP
    have hacc : ∀ fuel, accessedLocs Mod R b fuel Mem
        = (Location.ofValue R Mem).expand Mod fuel [] b := by
      intro fuel
      unfold accessedLocs
      simp [hB, hP]
    refine ⟨?_, ?_, ?_⟩
    · intro fuel Locs he
      refine ⟨enumerateLoop Locs V, ?_, enumerateLoop_LV Locs V, ?_, ?_⟩
      · rw [enumerateLocation_eq, hacc, he]; rfl
      · intro K hK
        exact enumerateLoop_lookup_other Locs K hK V
      · intro K hK
        have hp := expand_present Mod _ b fuel Locs hP he K hK
        obtain ⟨j, h1, h2, h3, h4⟩ := enumerateLoop_lookup_last Locs K hp hK V
        refine ⟨j, h1, h2, ?_, ?_⟩
        · rw [enumerateLoop_LV]; exact h3
        · intro i hi
          rw [enumerateLoop_LV]; exact h4 i hi
    · intro fuel V1 h
      rw [enumerateLocation_eq, hacc] at h
      cases he : (Location.ofValue R Mem).expand Mod fuel [] b with
      | none => rw [he] at h; cases h
      | some Locs => exact ⟨Locs, rfl⟩
    · intro hfin
      obtain ⟨d, hd⟩ := heightLE_of_finiteTree Mod _ hfin
      obtain ⟨n, hn⟩ := expand_eq Mod b d _ hd hP
      refine ⟨n, _, ?_, fun fuel hle => hn fuel hle []⟩
      cases b with
      | false => simp
      | true =>
        have := subtreeLocs_leaves_ne_nil Mod d _ hd
        simpa using this

theorem enumerateLocation_frame_witness :
    Location.enumerateLocation twoFieldModule twoFieldOracle true 0 (some 5)
        { LV := [locA], BM := [(locA, 0)] } = some { LV := [locA], BM := [(locA, 0)] } ∧
      (∃ V1, Location.enumerateLocation twoFieldModule twoFieldOracle true 1 (some 1)
          { LV := [locA], BM := [(locA, 0)] } = some V1 ∧
        V1.LV = [locA] ++ [locA] ∧
        (∀ K, K ∉ [locA] → V1.BM.lookup K = LocationIndexMap.lookup [(locA, 0)] K) ∧
        (∀ K, K ∈ [locA] → ∃ j, V1.BM.lookup K = some j ∧ [locA].length ≤ j ∧
          V1.LV[j]? = some K ∧ ∀ i, j < i → V1.LV[i]? ≠ some K)) ∧
      (∃ n Locs, Locs ≠ [] ∧ ∀ fuel, n ≤ fuel →
        (Location.ofValue twoFieldOracle (some 1)).expand twoFieldModule fuel [] true
          = some Locs) :=
  ⟨(enumerateLocation_frame twoFieldModule twoFieldOracle true (some 5)
      { LV := [locA], BM := [(locA, 0)] }).1 (Or.inl rfl) 0,
   ((enumerateLocation_frame twoFieldModule twoFieldOracle true (some 1)
      { LV := [locA], BM := [(locA, 0)] }).2 rfl rfl).1 1 [locA] (by decide),
   ((enumerateLocation_frame twoFieldModule twoFieldOracle true (some 1)
      { LV := [locA], BM := [(locA, 0)] }).2 rfl rfl).2.2 (twoFieldModule_finite _)⟩

/-- C9 (amended): whenever the expansions of the references that the loads and stores of a
function access return, with `Ls` their concatenation in program order,
`enumerateLocations` on the empty vault returns a vault whose location list is exactly
`Ls`, so a location reached again is listed again; the keys of the index map are pairwise
distinct and are exactly the locations of `Ls`, each mapped to the position of its last
occurrence in `Ls`, and the number of keys is at most the length of `Ls`.  The call
returns only in this way, and it returns from some fuel on when every decomposition tree
is finite.  For one load and one store on the two leaf fields of a two-field struct, with
leaf-only expansion, the vault has exactly the two entries `locA` (index 0) and `locB`
(index 1). -/
theorem enumerateLocations_from_empty (Mod : SILModule) (R : AddressOracle) (b : Bool)
    (F : SILFunction) :
    (∀ fuel Ls, functionLocs Mod R b fuel F.flatten = some Ls →
        ∃ V, Location.enumerateLocations Mod R b fuel F emptyVault = some V ∧
          V.LV = Ls ∧ V.BM.keys.Nodup ∧ (∀ K, K ∈ V.BM.keys ↔ K ∈ Ls) ∧
          (∀ K ∈ Ls, ∃ j, V.BM.lookup K = some j ∧ Ls[j]? = some K ∧
            ∀ i, j < i → Ls[i]? ≠ some K) ∧
          V.BM.keys.length ≤ Ls.length) ∧
      (∀ fuel V, Location.enumerateLocations Mod R b fuel F emptyVault = some V →
        functionLocs Mod R b fuel F.flatten = some V.LV) ∧
      ((∀ L : Location, FiniteTree Mod L) →
        ∃ n, ∀ fuel, n ≤ fuel → ∃ Ls, functionLocs Mod R b fuel F.flatten = some Ls) ∧
      Location.enumerateLocations twoFieldModule twoFieldOracle true 1
          [[.LoadInst (some 1), .StoreInst (some 7) (some 2)]] emptyVault
        = some { LV := [locA, locB], BM := [(locA, 0), (locB, 1)] } := by
  have hE : VaultLinked emptyVault :=
    ⟨fun e he => by simp [emptyVault] at he, by simp [emptyVault, LocationIndexMap.keys],
     fun K hK => by simp [emptyVault] at hK⟩
  have hLV : ∀ Ls : LocationList, (enumerateLoop Ls emptyVault).LV = Ls := by
    intro Ls
    rw [enumerateLoop_LV]
    simp [emptyVault]
  refine ⟨?_, ?_, ?_, by decide⟩
  · intro fuel Ls hLs
    have hp := functionLocs_present Mod R b fuel F.flatten Ls hLs
    obtain ⟨hent, hnd, hsub⟩ := enumerateLoop_linked Ls emptyVault hp hE
    rw [hLV] at hsub
    have hback : ∀ K, K ∈ (enumerateLoop Ls emptyVault).BM.keys → K ∈ Ls := by
      intro K hK
      obtain ⟨e, he, rfl⟩ := List.mem_map.1 hK
      have := List.getElem?_mem (hent e he).2
      rw [hLV] at this
      exact this
    refine ⟨enumerateLoop Ls emptyVault, ?_, hLV Ls, hnd,
      fun K => ⟨hback K, hsub K⟩, ?_, ?_⟩
    · unfold Location.enumerateLocations
      rw [enumerateInsts_eq, hLs]; rfl
    · intro K hK
      obtain ⟨j, h1, _, h3, h4⟩ := enumerateLoop_lookup_last Ls K (hp K hK) hK emptyVault
      have hnil : emptyVault.LV ++ Ls = Ls := by simp [emptyVault]
      rw [hnil] at h3 h4
      exact ⟨j, h1, h3, h4⟩
    · exact (List.subperm_of_subset hnd hback).length_le
  · intro fuel V h
    unfold Location.enumerateLocations at h
    rw [enumerateInsts_eq] at h
    cases hf : functionLocs Mod R b fuel F.flatten with
    | none => rw [hf] at h; cases h
    | some Ls =>
      rw [hf] at h
      simp only [Option.map_some', Option.some.injEq] at h
      rw [← h, hLV]
  · intro hfin
    exact functionLocs_returns Mod R b hfin F.flatten

theorem enumerateLocations_from_empty_witness :
    (∃ V, Location.enumerateLocations twoFieldModule twoFieldOracle true 1
          [[.LoadInst (some 1), .LoadInst (some 1)]] emptyVault = some V ∧
        V.LV = [locA, locA] ∧ V.BM.keys.Nodup ∧
        (∀ K, K ∈ V.BM.keys ↔ K ∈ [locA, locA]) ∧
        (∀ K ∈ [locA, locA], ∃ j, V.BM.lookup K = some j ∧ [locA, locA][j]? = some K ∧
          ∀ i, j < i → [locA, locA][i]? ≠ some K) ∧
        V.BM.keys.length ≤ [locA, locA].length) ∧
      (∃ n, ∀ fuel, n ≤ fuel → ∃ Ls, functionLocs twoFieldModule twoFieldOracle true fuel
        ([[.LoadInst (some 1), .LoadInst (some 1)]] : SILFunction).flatten = some Ls) :=
  ⟨(enumerateLocations_from_empty twoFieldModule twoFieldOracle true
      [[.LoadInst (some 1), .LoadInst (some 1)]]).1 1 [locA, locA] (by decide),
   (enumerateLocations_from_empty twoFieldModule twoFieldOracle true
      [[.LoadInst (some 1), .LoadInst (some 1)]]).2.2.1 twoFieldModule_finite⟩

end swift
